import Mathlib

/-!
Shallow embedding of the `autojsons` library (`src/autojsons/core.py`,
`src/autojsons/exceptions.py`).

The library is glue code over CPython's `json` module and `pathlib`
filesystem operations, so the embedding models three layers:

* `PyVal`: the Python runtime values the library moves around (the JSON data
  model plus the values that make serialization interesting: non-finite
  floats, finite floats, and arbitrary non-serializable objects).
* CPython's `json.dump`/`json.load`: `encVal` follows the pure-Python
  `json.encoder._make_iterencode` (the C accelerator is not used when
  `indent` is given), `parseValF`/`scanString`/`matchNumber` follow
  `json.decoder`/`json.scanner` (`py_scanstring`, `JSONObject`, `JSONArray`,
  `NUMBER_RE`, `_scan_once`).  The parser's recursion is driven by an
  explicit fuel argument so that it is structurally recursive and evaluates
  inside the kernel; the fuel supplied by `loads` is always sufficient,
  mirroring the absence of a recursion limit in the embedding.
* A filesystem `FS`: an association list of regular files (path to decoded
  text content) plus a list of existing directories, with the traversal
  order of `pathlib.Path.glob` modelled as the order of the file list.

Error values mirror the library's exception taxonomy (`JSONError` base,
`JSONFileError`, `JSONValidationError`) as the tagged type `JSONErr`, and
decode failures carry the same message text CPython's `JSONDecodeError`
renders (message, line, column, char offset).

Caveats of the embedding, none of which the theorems below depend on:
Python strings may hold lone surrogates, which `Char` cannot; finite floats
are kept as their matched literal text, since IEEE-754 arithmetic and
`float.__repr__` shortening are outside the embedding; a few error message
details (character `repr` interpolations, OS error texts) are abbreviated;
reading a file never fails with an OS error in the model, file contents
being already-decoded text.
-/

namespace AutoJsons

/-- Python runtime values relevant to the library: the JSON data model
(`none`/`bool`/`int`/`str`/`list`/`dict` with string keys), the non-finite
floats `nan`/`inf`/`ninf`, finite floats kept as their literal text
(`pfloat`), and a non-serializable Python object carrying its class name
(`object`). -/
inductive PyVal where
  | none
  | bool (b : Bool)
  | int (n : Int)
  | nan
  | inf
  | ninf
  | pfloat (lit : String)
  | str (s : String)
  | list (xs : List PyVal)
  | dict (kvs : List (String × PyVal))
  | object (cls : String)

/-- Python `d[k] = v` on an insertion-ordered dict: an existing key keeps its
position and gets the new value, a new key is appended. -/
def dictSet (d : List (String × PyVal)) (k : String) (v : PyVal) :
    List (String × PyVal) :=
  if d.any (fun e => e.1 = k) then
    d.map (fun e => if e.1 = k then (k, v) else e)
  else d ++ [(k, v)]

/-- Python `d.update(u)`: assign every pair of `u` into `d` in order. -/
def dictUpdate (d u : List (String × PyVal)) : List (String × PyVal) :=
  u.foldl (fun acc kv => dictSet acc kv.1 kv.2) d

/-- Python `dict(pairs)`: insertion-ordered accumulation of an association
list (on a duplicated key, first position and last value win). -/
def dictFromPairs (l : List (String × PyVal)) : List (String × PyVal) :=
  dictUpdate [] l

/-- The decimal digit character for `d < 10`. -/
def digitChar (d : Nat) : Char := Char.ofNat (48 + d)

/-- Decimal digits of `n`, most significant first; the fuel argument only
drives the recursion and any `fuel > n` yields the digits. -/
def natDigits (fuel : Nat) (n : Nat) : List Char :=
  match fuel with
  | 0 => []
  | f + 1 => if n < 10 then [digitChar n] else natDigits f (n / 10) ++ [digitChar (n % 10)]

/-- Model of Python `repr` for a nonnegative integer. -/
def natRepr (n : Nat) : String := String.mk (natDigits (n + 1) n)

/-- Model of Python `repr` for an integer, as characters (what
`json.encoder` emits for an `int`). -/
def intReprL : Int → List Char
  | Int.ofNat m => natDigits (m + 1) m
  | Int.negSucc m => '-' :: natDigits (m + 2) (m + 1)

/-- Lowercase hexadecimal digit character for `d < 16`. -/
def hexDigitChar (d : Nat) : Char :=
  if d < 10 then Char.ofNat (48 + d) else Char.ofNat (87 + d)

/-- Four lowercase hex digits of `n < 0x10000`, as in Python `'\u%04x'`. -/
def hex4 (n : Nat) : List Char :=
  [hexDigitChar (n / 4096 % 16), hexDigitChar (n / 256 % 16),
    hexDigitChar (n / 16 % 16), hexDigitChar (n % 16)]

/-- One character of JSON string escaping, following
`json.encoder.py_encode_basestring` (`ascii = false`, the `ensure_ascii=False`
regex `[\\"\x00-\x1f]`) and `py_encode_basestring_ascii` (`ascii = true`,
which additionally escapes everything outside `0x20`-`0x7e`, astral
characters as a surrogate pair). -/
def escCharL (ascii : Bool) (c : Char) : List Char :=
  if c = '\\' then ['\\', '\\']
  else if c = '"' then ['\\', '"']
  else if c = '\n' then ['\\', 'n']
  else if c = '\r' then ['\\', 'r']
  else if c = '\t' then ['\\', 't']
  else if c.toNat = 8 then ['\\', 'b']
  else if c.toNat = 12 then ['\\', 'f']
  else if c.toNat < 32 then '\\' :: 'u' :: hex4 c.toNat
  else if ascii && 126 < c.toNat then
    if c.toNat < 65536 then '\\' :: 'u' :: hex4 c.toNat
    else
      '\\' :: 'u' :: hex4 (55296 + (c.toNat - 65536) / 1024) ++
        '\\' :: 'u' :: hex4 (56320 + (c.toNat - 65536) % 1024)
  else [c]

/-- JSON string escaping of a character sequence. -/
def escapeChars (ascii : Bool) (s : List Char) : List Char :=
  (s.map (escCharL ascii)).flatten

/-- A JSON string literal: quote, escaped contents, quote. -/
def encStr (ascii : Bool) (s : String) : List Char :=
  '"' :: escapeChars ascii s.toList ++ ['"']

/-- `n` spaces. -/
def sp (n : Nat) : List Char := List.replicate n ' '

mutual

/-- Model of the pure-Python `json.encoder._make_iterencode` body with an
`indent` given (so the C accelerator is bypassed and the separators default
to `(',', ': ')`): returns the concatenation of the chunks emitted before
returning or raising, paired with the `TypeError` message if a
non-serializable object was hit.  `allow_nan` is left at its default, so the
non-finite floats serialize as `NaN`, `Infinity` and `-Infinity`. -/
def encVal (ascii : Bool) (ind lvl : Nat) : PyVal → List Char × Option String
  | PyVal.none => ("null".toList, Option.none)
  | PyVal.bool b => ((if b then "true" else "false").toList, Option.none)
  | PyVal.int n => (intReprL n, Option.none)
  | PyVal.nan => ("NaN".toList, Option.none)
  | PyVal.inf => ("Infinity".toList, Option.none)
  | PyVal.ninf => ("-Infinity".toList, Option.none)
  | PyVal.pfloat lit => (lit.toList, Option.none)
  | PyVal.str s => (encStr ascii s, Option.none)
  | PyVal.object cls =>
      ([], some ("Object of type " ++ cls ++ " is not JSON serializable"))
  | PyVal.list [] => (['[', ']'], Option.none)
  | PyVal.list (x :: xs) =>
      let body := encItems ascii ind (lvl + 1) x xs
      match body.2 with
      | some e => ('[' :: '\n' :: sp (ind * (lvl + 1)) ++ body.1, some e)
      | Option.none =>
          ('[' :: '\n' :: sp (ind * (lvl + 1)) ++ body.1 ++ '\n' :: sp (ind * lvl) ++ [']'],
            Option.none)
  | PyVal.dict [] => (['{', '}'], Option.none)
  | PyVal.dict ((k, v) :: kvs) =>
      let body := encMembers ascii ind (lvl + 1) k v kvs
      match body.2 with
      | some e => ('{' :: '\n' :: sp (ind * (lvl + 1)) ++ body.1, some e)
      | Option.none =>
          ('{' :: '\n' :: sp (ind * (lvl + 1)) ++ body.1 ++ '\n' :: sp (ind * lvl) ++ ['}'],
            Option.none)
termination_by v => sizeOf v
decreasing_by all_goals (simp_wf; try omega)

/-- The element loop of `_iterencode_list`: encode the elements at the
current indent level, separated by `,` and a fresh indented line, keeping
only the chunks emitted before the first failure. -/
def encItems (ascii : Bool) (ind lvl : Nat) (x : PyVal) :
    List PyVal → List Char × Option String
  | [] => encVal ascii ind lvl x
  | y :: ys =>
      let r := encVal ascii ind lvl x
      match r.2 with
      | some e => (r.1, some e)
      | Option.none =>
          let rr := encItems ascii ind lvl y ys
          (r.1 ++ ',' :: '\n' :: sp (ind * lvl) ++ rr.1, rr.2)
termination_by xs => 1 + sizeOf x + sizeOf xs
decreasing_by all_goals (simp_wf; try omega)

/-- The member loop of `_iterencode_dict`: each member is the escaped key,
the `': '` key separator and the encoded value; members are separated by `,`
and a fresh indented line, keeping only the chunks emitted before the first
failure (the key and separator of the failing member are emitted before its
value raises). -/
def encMembers (ascii : Bool) (ind lvl : Nat) (k : String) (v : PyVal) :
    List (String × PyVal) → List Char × Option String
  | [] =>
      let r := encVal ascii ind lvl v
      (encStr ascii k ++ ':' :: ' ' :: r.1, r.2)
  | (k2, v2) :: rest =>
      let r := encVal ascii ind lvl v
      match r.2 with
      | some e => (encStr ascii k ++ ':' :: ' ' :: r.1, some e)
      | Option.none =>
          let rr := encMembers ascii ind lvl k2 v2 rest
          (encStr ascii k ++ ':' :: ' ' :: r.1 ++ ',' :: '\n' :: sp (ind * lvl) ++ rr.1, rr.2)
termination_by kvs => 1 + sizeOf v + sizeOf kvs
decreasing_by all_goals (simp_wf; try omega)

end

/-- Model of `json.dump(v, f, indent=ind, ensure_ascii=ascii)`: the text
written to the file (all of it on success, the chunks emitted before the
`TypeError` otherwise) and the failure message, if any. -/
def dumps (v : PyVal) (ind : Nat) (ascii : Bool) : List Char × Option String :=
  encVal ascii ind 0 v

/-- A decode failure as `json.JSONDecodeError` stores it: message and
character offset into the document. -/
structure DecErr where
  msg : String
  pos : Nat

/-- The characters `json.decoder.WHITESPACE` skips. -/
def isWsChar (c : Char) : Bool := c = ' ' || c = '\t' || c = '\n' || c = '\r'

/-- Skip whitespace, advancing the character offset. -/
def skipWs : List Char → Nat → List Char × Nat
  | [], pos => ([], pos)
  | c :: rest, pos => if isWsChar c then skipWs rest (pos + 1) else (c :: rest, pos)

/-- Value of a hexadecimal digit character, either case. -/
def hexVal? (c : Char) : Option Nat :=
  if '0' ≤ c && c ≤ '9' then some (c.toNat - 48)
  else if 'a' ≤ c && c ≤ 'f' then some (c.toNat - 87)
  else if 'A' ≤ c && c ≤ 'F' then some (c.toNat - 55)
  else Option.none

/-- Value of a four-hex-digit escape body, as `int(esc, 16)` computes it for
a well-formed escape. -/
def hex4? (a b c d : Char) : Option Nat :=
  match hexVal? a, hexVal? b, hexVal? c, hexVal? d with
  | some x, some y, some z, some w => some (((x * 16 + y) * 16 + z) * 16 + w)
  | _, _, _, _ => Option.none

/-- The `json.decoder.BACKSLASH` table of short escapes. -/
def escMap (e : Char) : Option Char :=
  if e = '"' then some '"'
  else if e = '\\' then some '\\'
  else if e = '/' then some '/'
  else if e = 'b' then some (Char.ofNat 8)
  else if e = 'f' then some (Char.ofNat 12)
  else if e = 'n' then some '\n'
  else if e = 'r' then some '\r'
  else if e = 't' then some '\t'
  else Option.none

/-- Looks ahead for the low half of a surrogate pair: a `\uXXXX` escape
whose value lies in the low-surrogate range, returning its value and the
input after it. -/
def scanPairLo : List Char → Option (Nat × List Char)
  | '\\' :: 'u' :: a :: b :: c :: d :: rest =>
      match hex4? a b c d with
      | some uni2 =>
          if 56320 ≤ uni2 && uni2 ≤ 57343 then some (uni2, rest) else Option.none
      | Option.none => Option.none
  | _ => Option.none

mutual

/-- Model of `json.decoder.py_scanstring` in strict mode, scanning from just
after the opening quote (`bgn` is the offset of that quote, used by the
unterminated-string error).  Returns the decoded characters, the input after
the closing quote, and the offset after the closing quote.  The fuel only
drives the recursion and cannot run out when one more unit than the input
length is supplied, every step consuming at least one character.  A `\uXXXX`
escape denoting half of a surrogate pair with no partner is kept by CPython
as a lone surrogate; `Char` has no such value, so the model maps it through
`Char.ofNat` (no theorem below touches this corner). -/
def scanStringF : Nat → Nat → List Char → Nat → Except DecErr (List Char × List Char × Nat)
  | 0, bgn, _, _ => Except.error (DecErr.mk "Unterminated string starting at" bgn)
  | f + 1, bgn, l, pos =>
    match l with
    | [] => Except.error (DecErr.mk "Unterminated string starting at" bgn)
    | ch :: rest =>
        if ch = '"' then Except.ok ([], rest, pos + 1)
        else if ch = '\\' then scanEscF f bgn rest (pos + 1)
        else if ch.toNat < 32 then Except.error (DecErr.mk "Invalid control character" pos)
        else (scanStringF f bgn rest (pos + 1)).map (fun r => (ch :: r.1, r.2))

/-- The escape handler of `py_scanstring`, entered just after the backslash
(`pos` is the offset of the character after the backslash): the `BACKSLASH`
table of short escapes, or a `\uXXXX` escape with the surrogate-pair
join. -/
def scanEscF : Nat → Nat → List Char → Nat → Except DecErr (List Char × List Char × Nat)
  | 0, bgn, _, _ => Except.error (DecErr.mk "Unterminated string starting at" bgn)
  | f + 1, bgn, l, pos =>
    match l with
    | [] => Except.error (DecErr.mk "Unterminated string starting at" bgn)
    | 'u' :: a :: b :: c :: d :: rest =>
        match hex4? a b c d with
        | Option.none => Except.error (DecErr.mk "Invalid \\uXXXX escape" pos)
        | some uni =>
            if 55296 ≤ uni && uni ≤ 56319 then
              match scanPairLo rest with
              | some pr =>
                  (scanStringF f bgn pr.2 (pos + 11)).map (fun r =>
                    (Char.ofNat (65536 + (uni - 55296) * 1024 + (pr.1 - 56320)) :: r.1, r.2))
              | Option.none =>
                  (scanStringF f bgn rest (pos + 5)).map (fun r => (Char.ofNat uni :: r.1, r.2))
            else (scanStringF f bgn rest (pos + 5)).map (fun r => (Char.ofNat uni :: r.1, r.2))
    | e :: rest =>
        if e = 'u' then Except.error (DecErr.mk "Invalid \\uXXXX escape" pos)
        else
          match escMap e with
          | some ch => (scanStringF f bgn rest (pos + 1)).map (fun r => (ch :: r.1, r.2))
          | Option.none => Except.error (DecErr.mk "Invalid \\escape" pos)

end

/-- Decimal value of a run of digit characters, most significant first. -/
def digitsVal (l : List Char) : Nat := l.foldl (fun a c => a * 10 + (c.toNat - 48)) 0

/-- The `(\.\d+)?` group of `json.scanner.NUMBER_RE`: the matched text and
the remainder (the group matches only with at least one digit). -/
def matchFrac (l : List Char) : List Char × List Char :=
  match l with
  | c :: t =>
    if c = '.' then
      let ds := t.takeWhile Char.isDigit
      if ds.length = 0 then ([], l) else ('.' :: ds, t.drop ds.length)
    else ([], l)
  | [] => ([], l)

/-- The `([eE][-+]?\d+)?` group of `json.scanner.NUMBER_RE`. -/
def matchExp (l : List Char) : List Char × List Char :=
  match l with
  | e :: s :: t =>
    if e = 'e' || e = 'E' then
      if s = '+' || s = '-' then
        let ds := t.takeWhile Char.isDigit
        if ds.length = 0 then ([], l) else (e :: s :: ds, t.drop ds.length)
      else
        let ds := (s :: t).takeWhile Char.isDigit
        if ds.length = 0 then ([], l) else (e :: ds, (s :: t).drop ds.length)
    else ([], l)
  | [e] => ([], [e])
  | [] => ([], [])

/-- Finishes a number match after the integer part: an integer when neither
optional group matched, otherwise a float kept as its matched literal. -/
def matchNumTail (neg : Bool) (ipart : List Char) (l : List Char) : PyVal × List Char :=
  let fr := matchFrac l
  let ex := matchExp fr.2
  if fr.1.isEmpty && ex.1.isEmpty then
    (PyVal.int (if neg then -(digitsVal ipart : Int) else (digitsVal ipart : Int)), l)
  else
    (PyVal.pfloat (String.mk ((if neg then ['-'] else []) ++ ipart ++ fr.1 ++ ex.1)), ex.2)

/-- The `(-?(?:0|[1-9]\d*))` part of `NUMBER_RE` after the sign: a single
`0`, or a nonzero leading digit and any further digits. -/
def matchNumAfterSign (neg : Bool) (l1 : List Char) : Option (PyVal × List Char) :=
  match l1 with
  | c :: t =>
    if c = '0' then some (matchNumTail neg ['0'] t)
    else if c.isDigit then
      let ds := t.takeWhile Char.isDigit
      some (matchNumTail neg (c :: ds) (t.drop ds.length))
    else Option.none
  | [] => Option.none

/-- Model of matching `json.scanner.NUMBER_RE` at the current position:
the parsed value (Python `int(...)` of the integer text, or `float(...)`
kept as the literal) and the remaining input, or `none` when the regex does
not match here. -/
def matchNumber (l : List Char) : Option (PyVal × List Char) :=
  match l with
  | c :: t => if c = '-' then matchNumAfterSign true t else matchNumAfterSign false (c :: t)
  | [] => Option.none

mutual

/-- Model of `json.scanner.py_make_scanner._scan_once` (the value
dispatcher): tries string, object, array, the three keyword literals, the
number regex, then the non-finite constants, in CPython's order.  The
bodies of `json.decoder.JSONObject` and `json.decoder.JSONArray` up to
their first member are inlined into the `{` and `[` arms, their member
loops being the two functions below.  The fuel drives the mutual recursion;
the `0` cases cannot be reached from `loads`, which supplies one more unit
of fuel than there are input characters while every recursive call spends
one unit only after at least one character was consumed. -/
def parseValF : Nat → List Char → Nat → Except DecErr (PyVal × List Char × Nat)
  | 0, _, pos => Except.error (DecErr.mk "Expecting value" pos)
  | f + 1, l, pos =>
    match l with
    | '"' :: rest =>
        match scanStringF (rest.length + 1) pos rest (pos + 1) with
        | Except.ok r => Except.ok (PyVal.str (String.mk r.1), r.2.1, r.2.2)
        | Except.error e => Except.error e
    | '{' :: rest =>
        match rest with
        | '"' :: rest2 => parseObjItemsF f [] rest2 (pos + 2)
        | _ =>
          let w := skipWs rest (pos + 1)
          match w.1 with
          | '}' :: rest2 => Except.ok (PyVal.dict [], rest2, w.2 + 1)
          | '"' :: rest2 => parseObjItemsF f [] rest2 (w.2 + 1)
          | _ =>
              Except.error
                (DecErr.mk "Expecting property name enclosed in double quotes" w.2)
    | '[' :: rest =>
        let w := skipWs rest (pos + 1)
        match w.1 with
        | ']' :: rest2 => Except.ok (PyVal.list [], rest2, w.2 + 1)
        | _ => parseArrItemsF f [] w.1 w.2
    | _ =>
      if l.take 4 = "null".toList then Except.ok (PyVal.none, l.drop 4, pos + 4)
      else if l.take 4 = "true".toList then Except.ok (PyVal.bool true, l.drop 4, pos + 4)
      else if l.take 5 = "false".toList then Except.ok (PyVal.bool false, l.drop 5, pos + 5)
      else
        match matchNumber l with
        | some r => Except.ok (r.1, r.2, pos + (l.length - r.2.length))
        | Option.none =>
          if l.take 3 = "NaN".toList then Except.ok (PyVal.nan, l.drop 3, pos + 3)
          else if l.take 8 = "Infinity".toList then Except.ok (PyVal.inf, l.drop 8, pos + 8)
          else if l.take 9 = "-Infinity".toList then Except.ok (PyVal.ninf, l.drop 9, pos + 9)
          else Except.error (DecErr.mk "Expecting value" pos)

/-- The element loop of `json.decoder.JSONArray`: parse a value, then expect
`]` to close or `,` (with surrounding whitespace) to continue. -/
def parseArrItemsF : Nat → List PyVal → List Char → Nat → Except DecErr (PyVal × List Char × Nat)
  | 0, _, _, pos => Except.error (DecErr.mk "Expecting value" pos)
  | f + 1, acc, l, pos =>
    match parseValF f l pos with
    | Except.error e => Except.error e
    | Except.ok r =>
        let w := skipWs r.2.1 r.2.2
        match w.1 with
        | ']' :: rest => Except.ok (PyVal.list (acc ++ [r.1]), rest, w.2 + 1)
        | ',' :: rest =>
            let w2 := skipWs rest (w.2 + 1)
            parseArrItemsF f (acc ++ [r.1]) w2.1 w2.2
        | _ => Except.error (DecErr.mk "Expecting ',' delimiter" w.2)

/-- The member loop of `json.decoder.JSONObject`, entered just after a key's
opening quote: scan the key, expect `:` (whitespace allowed before and
after), parse the value, then `}` closes (building the dict as `dict(pairs)`
does) or `,` and a quoted key continue. -/
def parseObjItemsF : Nat → List (String × PyVal) → List Char → Nat →
    Except DecErr (PyVal × List Char × Nat)
  | 0, _, _, pos => Except.error (DecErr.mk "Expecting value" pos)
  | f + 1, acc, l, pos =>
    match scanStringF (l.length + 1) (pos - 1) l pos with
    | Except.error e => Except.error e
    | Except.ok k =>
        let w := skipWs k.2.1 k.2.2
        match w.1 with
        | ':' :: rest =>
            let w2 := skipWs rest (w.2 + 1)
            match parseValF f w2.1 w2.2 with
            | Except.error e => Except.error e
            | Except.ok r =>
                let acc2 := acc ++ [(String.mk k.1, r.1)]
                let w3 := skipWs r.2.1 r.2.2
                match w3.1 with
                | '}' :: rest2 => Except.ok (PyVal.dict (dictFromPairs acc2), rest2, w3.2 + 1)
                | ',' :: rest2 =>
                    let w4 := skipWs rest2 (w3.2 + 1)
                    match w4.1 with
                    | '"' :: rest3 => parseObjItemsF f acc2 rest3 (w4.2 + 1)
                    | _ =>
                        Except.error
                          (DecErr.mk "Expecting property name enclosed in double quotes" w4.2)
                | _ => Except.error (DecErr.mk "Expecting ',' delimiter" w3.2)
        | _ => Except.error (DecErr.mk "Expecting ':' delimiter" w.2)

end

/-- Model of `json.loads` (hence of `json.load` on the file's text):
skip leading whitespace, scan one value, skip trailing whitespace, and
refuse leftover text as `Extra data`. -/
def loads (s : String) : Except DecErr PyVal :=
  let l := s.toList
  let w := skipWs l 0
  match parseValF (l.length + 1) w.1 w.2 with
  | Except.error e => Except.error e
  | Except.ok r =>
      let w2 := skipWs r.2.1 r.2.2
      match w2.1 with
      | [] => Except.ok r.1
      | _ => Except.error (DecErr.mk "Extra data" w2.2)

/-- Index of the last occurrence of `c`, if any. -/
def rfindChar (c : Char) : List Char → Option Nat
  | [] => Option.none
  | x :: rest =>
      match rfindChar c rest with
      | some i => some (i + 1)
      | Option.none => if x = c then some 0 else Option.none

/-- The 1-based line number of offset `pos` in `doc`, as
`JSONDecodeError.__init__` computes it (`doc.count('\n', 0, pos) + 1`). -/
def lineOf (doc : String) (pos : Nat) : Nat :=
  ((doc.toList.take pos).filter (fun c => c = '\n')).length + 1

/-- The 1-based column of offset `pos` in `doc`, as
`JSONDecodeError.__init__` computes it (`pos - doc.rfind('\n', 0, pos)`). -/
def colOf (doc : String) (pos : Nat) : Nat :=
  match rfindChar '\n' (doc.toList.take pos) with
  | some i => pos - i
  | Option.none => pos + 1

/-- The message a `json.JSONDecodeError` carries:
`'%s: line %d column %d (char %d)'`. -/
def decErrStr (doc : String) (e : DecErr) : String :=
  e.msg ++ ": line " ++ natRepr (lineOf doc e.pos) ++ " column " ++
    natRepr (colOf doc e.pos) ++ " (char " ++ natRepr e.pos ++ ")"

/-- The library's exception taxonomy from `exceptions.py`: `JSONError` is
the base class, `JSONFileError` and `JSONValidationError` derive from it.
A raised exception is identified here by its most-derived class. -/
inductive JSONErr where
  | base (msg : String)
  | file (msg : String)
  | validation (msg : String)

/-- Whether the exception is (an instance of the subclass) `JSONFileError`. -/
def JSONErr.isFileError : JSONErr → Bool
  | JSONErr.file _ => true
  | _ => false

/-- Whether the exception is (an instance of the subclass)
`JSONValidationError`, the decode/validation kind of the taxonomy. -/
def JSONErr.isValidationError : JSONErr → Bool
  | JSONErr.validation _ => true
  | _ => false

/-- The `str(...)` of the exception. -/
def JSONErr.msg : JSONErr → String
  | JSONErr.base m => m
  | JSONErr.file m => m
  | JSONErr.validation m => m

/-- The filesystem as the library observes it: regular files with their
decoded text contents, in the order `pathlib.Path.glob` would yield them
(the spec leaves traversal order implementation-defined), and the existing
directories. -/
structure FS where
  files : List (String × String)
  dirs : List String

/-- The text content of the regular file at `p`, if one exists. -/
def FS.getFile (fs : FS) (p : String) : Option String := fs.files.lookup p

/-- Whether `p` names a regular file. -/
def FS.isFile (fs : FS) (p : String) : Bool := (fs.getFile p).isSome

/-- Whether `p` names a directory; `.` (the working directory, the parent
of a bare filename) always exists. -/
def FS.isDir (fs : FS) (p : String) : Bool := p = "." || fs.dirs.contains p

/-- `Path(p).exists()`: a regular file or a directory. -/
def FS.pathExists (fs : FS) (p : String) : Bool := fs.isFile p || fs.isDir p

/-- Opening `p` for writing and writing `c`: an existing file keeps its
position in the directory order and gets the new content, a fresh file is
appended. -/
def FS.setFile (fs : FS) (p c : String) : FS :=
  FS.mk
    (if fs.files.any (fun e => e.1 = p) then
      fs.files.map (fun e => if e.1 = p then (p, c) else e)
    else fs.files ++ [(p, c)])
    fs.dirs

/-- Splits on `/`, keeping empty components, as `p.split('/')` would. -/
def splitComps : List Char → List (List Char)
  | [] => [[]]
  | c :: rest =>
      if c = '/' then [] :: splitComps rest
      else
        match splitComps rest with
        | comp :: more => (c :: comp) :: more
        | [] => [[c]]

/-- The `/`-separated components of a path. -/
def splitPath (p : String) : List String := (splitComps p.toList).map String.mk

/-- Joins components with `/`. -/
def joinComps : List String → String
  | [] => ""
  | [c] => c
  | c :: rest => c ++ "/" ++ joinComps rest

/-- `Path(p).parent` for the relative multi-component paths the library
sees: the path without its last component, and `.` for a bare filename. -/
def parentPath (p : String) : String :=
  let comps := splitPath p
  if comps.length ≤ 1 then "." else joinComps comps.dropLast

/-- Every prefix of the component list of `p`, shortest first: the chain of
directories `mkdir(parents=True)` creates. -/
def ancestorPrefixes (p : String) : List String :=
  let comps := splitPath p
  (List.range comps.length).map (fun i => joinComps (comps.take (i + 1)))

/-- `Path(p).mkdir(parents=True, exist_ok=True)`: `p` and every missing
ancestor become directories (re-adding an existing one is harmless, the
directory list being read through membership only). -/
def FS.mkdirParents (fs : FS) (p : String) : FS :=
  FS.mk fs.files (fs.dirs ++ ancestorPrefixes p ++ [p])

/-- `Path(p).name`: the last path component. -/
def fileName (p : String) : String := (splitPath p).getLastD p

/-- `Path.stem` on a file name: the name without its last suffix, where a
suffix needs a dot that is neither the first nor the last character. -/
def stemOfName (name : String) : String :=
  match rfindChar '.' name.toList with
  | some i => if 0 < i ∧ i + 1 < name.toList.length then String.mk (name.toList.take i) else name
  | Option.none => name

/-- `Path(p).stem`: the stem of the last component. -/
def stemOfPath (p : String) : String := stemOfName (fileName p)

/-- Whether a file name matches the glob pattern `*.json` (`*` matches any
run of characters of a single component, the empty run included). -/
def globMatchName (name : String) : Bool := ".json".toList.isSuffixOf name.toList

/-- Strips a leading character sequence, if present. -/
def stripPre : List Char → List Char → Option (List Char)
  | [], l => some l
  | _ :: _, [] => Option.none
  | a :: pre2, b :: l2 => if a = b then stripPre pre2 l2 else Option.none

/-- The path of an entry relative to directory `d`, if the entry lies under
`d` (entries of the working directory `.` are stored relative already). -/
def relTo (d path : String) : Option String :=
  if d = "." then some path
  else
    match stripPre (d.toList ++ ['/']) path.toList with
    | some rest => some (String.mk rest)
    | Option.none => Option.none

/-- Whether a path relative to the globbed directory matches the pattern
`auto` uses: `**/*.json` when recursive (any depth, final component matching
`*.json`), `*.json` otherwise (single component only). -/
def matchesPat (recursive : Bool) (rel : String) : Bool :=
  if recursive then globMatchName (fileName rel)
  else (!(rel.toList.contains '/')) && globMatchName rel

/-- The regular files `directory.glob(pattern)` yields (with the library's
`is_file()` filter), in traversal order: the model's file-list order. -/
def matchedFiles (fs : FS) (d : String) (recursive : Bool) : List (String × String) :=
  fs.files.filter (fun f =>
    match relTo d f.1 with
    | some rel => matchesPat recursive rel
    | Option.none => false)

/-- An ASCII single quote, as Python `repr` wraps paths in OS error texts. -/
def quoted (s : String) : String :=
  String.mk [Char.ofNat 39] ++ s ++ String.mk [Char.ofNat 39]

/-- Model of `core.read`: a missing path is a `JSONFileError`, invalid JSON
a `JSONError` (the base class) carrying the path and the decode detail, and
opening a directory for reading lands in the generic
`except Exception` arm, a `JSONFileError`. -/
def read (fs : FS) (p : String) : Except JSONErr PyVal :=
  if !fs.pathExists p then Except.error (JSONErr.file ("File not found: " ++ p))
  else
    match fs.getFile p with
    | some c =>
        match loads c with
        | Except.ok v => Except.ok v
        | Except.error e =>
            Except.error (JSONErr.base ("Invalid JSON in file " ++ p ++ ": " ++ decErrStr c e))
    | Option.none =>
        Except.error
          (JSONErr.file ("Error reading file " ++ p ++ ": [Errno 21] Is a directory: " ++ quoted p))

/-- Model of `core.write`: optionally create the parent directory chain,
open `p` for writing (truncating or creating it), then stream the encoder's
chunks into it.  A `TypeError` from the encoder becomes the base
`JSONError`, with the file left holding the chunks emitted before the
raise; failures of `open` itself (the path being a directory, the parent
missing with `create_dirs` unset) become `JSONFileError` without touching
the file. -/
def write (p : String) (data : PyVal) (indent : Nat) (ensureAscii createDirs : Bool)
    (fs : FS) : Except JSONErr Unit × FS :=
  let par := parentPath p
  let fs1 := if createDirs && !fs.pathExists par then fs.mkdirParents par else fs
  if fs1.isDir p then
    (Except.error
      (JSONErr.file ("Error writing to file " ++ p ++ ": [Errno 21] Is a directory: " ++ quoted p)),
      fs1)
  else if !fs1.isDir par then
    (Except.error
      (JSONErr.file
        ("Error writing to file " ++ p ++ ": [Errno 2] No such file or directory: " ++ quoted p)),
      fs1)
  else
    let r := dumps data indent ensureAscii
    let fs2 := fs1.setFile p (String.mk r.1)
    match r.2 with
    | some e => (Except.error (JSONErr.base ("Data is not JSON-serializable: " ++ e)), fs2)
    | Option.none => (Except.ok (), fs2)

/-- Model of `core.update`: read the existing file (propagating its
failures before anything is written), fall back to an empty mapping when
the parsed content is not a dict or when the file is missing and
`create_if_not_exists` is set, fail with `JSONFileError` when it is missing
otherwise, then shallow-merge and write back with `write`'s defaults. -/
def update (p : String) (updates : List (String × PyVal)) (createIfNotExists : Bool)
    (fs : FS) : Except JSONErr (List (String × PyVal)) × FS :=
  if fs.pathExists p then
    match read fs p with
    | Except.error e => (Except.error e, fs)
    | Except.ok v =>
        let data := match v with | PyVal.dict d => d | _ => []
        let merged := dictUpdate data updates
        let r := write p (PyVal.dict merged) 4 false true fs
        match r.1 with
        | Except.error e => (Except.error e, r.2)
        | Except.ok _ => (Except.ok merged, r.2)
  else if createIfNotExists then
    let merged := dictUpdate [] updates
    let r := write p (PyVal.dict merged) 4 false true fs
    match r.1 with
    | Except.error e => (Except.error e, r.2)
    | Except.ok _ => (Except.ok merged, r.2)
  else (Except.error (JSONErr.file ("File not found: " ++ p)), fs)

/-- Model of `core.create`: an existing path without `overwrite` returns
`false` untouched; otherwise the data (an empty dict when not supplied) is
written with parent-directory creation. -/
def create (p : String) (data : Option PyVal) (overwrite : Bool) (indent : Nat)
    (ensureAscii : Bool) (fs : FS) : Except JSONErr Bool × FS :=
  if fs.pathExists p && !overwrite then (Except.ok false, fs)
  else
    let d := data.getD (PyVal.dict [])
    let r := write p d indent ensureAscii true fs
    match r.1 with
    | Except.error e => (Except.error e, r.2)
    | Except.ok _ => (Except.ok true, r.2)

/-- Model of `core.exists`: total by construction (the function never
raises); `true` only when `p` is a regular file whose content parses,
every failure (missing path, directory, parse error) collapsing to
`false`. -/
def exists' (fs : FS) (p : String) : Bool :=
  if !fs.pathExists p then false
  else
    match fs.getFile p with
    | some c => (loads c).isOk
    | Option.none => false

/-- The accumulation loop of `core.auto` over the matched files: parse each
and assign it under its stem, aborting on the first decode failure with the
base `JSONError` (reading itself cannot fail in the model, contents being
already-decoded text, so the `JSONFileError` arm of the loop is
unreachable). -/
def autoGo : List (String × String) → List (String × PyVal) →
    Except JSONErr (List (String × PyVal))
  | [], acc => Except.ok acc
  | (path, content) :: rest, acc =>
      match loads content with
      | Except.ok v => autoGo rest (dictSet acc (stemOfPath path) v)
      | Except.error e =>
          Except.error
            (JSONErr.base ("Error decoding JSON file " ++ path ++ ": " ++ decErrStr content e))

/-- Model of `core.auto`: a missing directory is created (with ancestors)
and yields an empty mapping when `create_if_not_exists` is set and is a
`JSONFileError` otherwise; an existing one has its matching `*.json` files
loaded under their stems in traversal order. -/
def auto (directory : String) (recursive createIfNotExists : Bool) (fs : FS) :
    Except JSONErr (List (String × PyVal)) × FS :=
  if !fs.pathExists directory then
    if createIfNotExists then (Except.ok [], fs.mkdirParents directory)
    else (Except.error (JSONErr.file ("Directory not found: " ++ directory)), fs)
  else
    (autoGo (matchedFiles fs directory recursive) [], fs)

/-- Whether the Python value is a `dict` (`isinstance(data, dict)`). -/
def PyVal.isDict : PyVal → Bool
  | PyVal.dict _ => true
  | _ => false

/-- Python deep equality (`==`) between two distinct object graphs, as the
round-trip property compares an original value with a freshly parsed one.
`nan` compares unequal to everything including itself (IEEE NaN), so no
constructor produces it; the `is`-identity shortcut of container comparison
never applies across distinct graphs and is not modelled; Python's
numeric-tower equalities between `bool` and `int` are included; `pfloat`
literals compare as text, an approximation the theorems never exercise;
`object` values compare by identity, hence never deep-equal across a
round trip. -/
inductive DeepEq : PyVal → PyVal → Prop where
  | none : DeepEq PyVal.none PyVal.none
  | bool : ∀ b, DeepEq (PyVal.bool b) (PyVal.bool b)
  | int : ∀ n, DeepEq (PyVal.int n) (PyVal.int n)
  | boolInt : ∀ b, DeepEq (PyVal.bool b) (PyVal.int (if b then 1 else 0))
  | intBool : ∀ b, DeepEq (PyVal.int (if b then 1 else 0)) (PyVal.bool b)
  | inf : DeepEq PyVal.inf PyVal.inf
  | ninf : DeepEq PyVal.ninf PyVal.ninf
  | pfloat : ∀ lit, DeepEq (PyVal.pfloat lit) (PyVal.pfloat lit)
  | str : ∀ s, DeepEq (PyVal.str s) (PyVal.str s)
  | list : ∀ xs ys, xs.length = ys.length → (∀ p ∈ xs.zip ys, DeepEq p.1 p.2) →
      DeepEq (PyVal.list xs) (PyVal.list ys)
  | dict : ∀ xs ys, xs.length = ys.length →
      (∀ kv ∈ xs, (ys.lookup kv.1).isSome = true) →
      (∀ kv ∈ xs, ∀ w, ys.lookup kv.1 = some w → DeepEq kv.2 w) →
      DeepEq (PyVal.dict xs) (PyVal.dict ys)

/-- The values `json.dump` serializes completely: everything except a
non-serializable `object` somewhere inside (under the default `allow_nan`,
the non-finite floats serialize as their constant names). -/
inductive Serializable : PyVal → Prop where
  | none : Serializable PyVal.none
  | bool : ∀ b, Serializable (PyVal.bool b)
  | int : ∀ n, Serializable (PyVal.int n)
  | nan : Serializable PyVal.nan
  | inf : Serializable PyVal.inf
  | ninf : Serializable PyVal.ninf
  | pfloat : ∀ lit, Serializable (PyVal.pfloat lit)
  | str : ∀ s, Serializable (PyVal.str s)
  | list : ∀ xs, (∀ x ∈ xs, Serializable x) → Serializable (PyVal.list xs)
  | dict : ∀ kvs, (∀ kv ∈ kvs, Serializable kv.2) → Serializable (PyVal.dict kvs)

/-- The JSON document values (the spec's data model: object, array, string,
number, boolean, null) whose write/read round trip is exact: floats are
excluded (non-finite ones refute the round trip, finite ones live outside
the embedding), and dict keys are distinct, as they are in any Python
dict. -/
inductive Roundtrippable : PyVal → Prop where
  | none : Roundtrippable PyVal.none
  | bool : ∀ b, Roundtrippable (PyVal.bool b)
  | int : ∀ n, Roundtrippable (PyVal.int n)
  | str : ∀ s, Roundtrippable (PyVal.str s)
  | list : ∀ xs, (∀ x ∈ xs, Roundtrippable x) → Roundtrippable (PyVal.list xs)
  | dict : ∀ kvs, (∀ kv ∈ kvs, Roundtrippable kv.2) → (kvs.map Prod.fst).Nodup →
      Roundtrippable (PyVal.dict kvs)

/-- `sub` occurs contiguously inside `hay`. -/
def containsSub (hay sub : String) : Prop := ∃ a b, hay = a ++ sub ++ b

/-- What may follow a rendered number so that the number regex stops
exactly at its end: nothing, or a character that can extend neither the
digit runs nor start the fraction or exponent groups.  The separators and
closers the encoder emits after an element all qualify. -/
def numBoundary : List Char → Prop
  | [] => True
  | c :: _ => c.isDigit = false ∧ c ≠ '.' ∧ c ≠ 'e' ∧ c ≠ 'E'

/-- The completeness statement of the scanner against the encoder, for one
value: at every indent level, with enough fuel, the scanner applied to the
encoder's output followed by any remainder that cannot extend a number
returns exactly the value and the remainder. -/
def ParsesBack (v : PyVal) : Prop :=
  ∀ (ind lvl fuel : Nat) (rest : List Char) (pos : Nat),
    (encVal false ind lvl v).1.length < fuel → numBoundary rest →
    ∃ q, parseValF fuel ((encVal false ind lvl v).1 ++ rest) pos = Except.ok (v, rest, q)

/-! ### Helper lemmas: strings, association lists, the filesystem -/

theorem mk_toList (s : String) : String.mk s.toList = s := rfl

theorem lookup_cons' {β : Type} (k0 a : String) (v0 : β) (es : List (String × β)) :
    ((k0, v0) :: es).lookup a = if a = k0 then some v0 else es.lookup a := by
  rw [List.lookup_cons]
  by_cases h : a = k0
  · simp [h]
  · have hb : (a == k0) = false := beq_eq_false_iff_ne.mpr h
    simp [hb, h]

theorem lookup_eq_none_of_not_mem_keys {β : Type} {k : String} {l : List (String × β)}
    (h : k ∉ l.map Prod.fst) : l.lookup k = Option.none := by
  induction l with
  | nil => rfl
  | cons e es ih =>
      obtain ⟨k0, v0⟩ := e
      simp only [List.map_cons, List.mem_cons] at h
      push_neg at h
      rw [lookup_cons', if_neg h.1]
      exact ih h.2

theorem lookup_append {β : Type} (l₁ l₂ : List (String × β)) (k : String) :
    (l₁ ++ l₂).lookup k = (l₁.lookup k).or (l₂.lookup k) := by
  induction l₁ with
  | nil => simp [Option.none_or]
  | cons e es ih =>
      obtain ⟨k0, v0⟩ := e
      by_cases h : k = k0
      · simp only [List.cons_append, lookup_cons', if_pos h]
        rfl
      · simp only [List.cons_append, lookup_cons', if_neg h]
        exact ih

theorem map_lookup_self {β : Type} {k : String} {v : β} {d : List (String × β)}
    (h : d.any (fun e => e.1 = k) = true) :
    (d.map (fun e => if e.1 = k then (k, v) else e)).lookup k = some v := by
  induction d with
  | nil => simp at h
  | cons e es ih =>
      obtain ⟨k0, v0⟩ := e
      by_cases he : k0 = k
      · simp only [List.map_cons, if_pos (show (k0, v0).1 = k from he)]
        rw [lookup_cons', if_pos rfl]
      · simp only [List.any_cons, Bool.or_eq_true, decide_eq_true_eq] at h
        have hes := h.resolve_left he
        simp only [List.map_cons, if_neg (show ¬(k0, v0).1 = k from he)]
        rw [lookup_cons', if_neg (fun hh => he hh.symm)]
        exact ih hes

theorem map_lookup_other {β : Type} {k k' : String} {v : β} {d : List (String × β)}
    (h : k' ≠ k) :
    (d.map (fun e => if e.1 = k then (k, v) else e)).lookup k' = d.lookup k' := by
  induction d with
  | nil => rfl
  | cons e es ih =>
      obtain ⟨k0, v0⟩ := e
      by_cases he : k0 = k
      · simp only [List.map_cons, if_pos (show (k0, v0).1 = k from he)]
        rw [lookup_cons', lookup_cons', if_neg h, if_neg (he ▸ h)]
        exact ih
      · simp only [List.map_cons, if_neg (show ¬(k0, v0).1 = k from he)]
        rw [lookup_cons', lookup_cons']
        by_cases hk : k' = k0
        · simp [hk]
        · rw [if_neg hk, if_neg hk]
          exact ih

theorem not_mem_keys_of_any_eq_false {β : Type} {k : String} {d : List (String × β)}
    (hany : ¬ d.any (fun e => e.1 = k) = true) : k ∉ d.map Prod.fst := by
  intro hmem
  apply hany
  rw [List.any_eq_true]
  obtain ⟨e, he, hke⟩ := List.mem_map.mp hmem
  exact ⟨e, he, by simp [hke]⟩

theorem lookup_dictSet (d : List (String × PyVal)) (k : String) (v : PyVal) (k' : String) :
    (dictSet d k v).lookup k' = if k' = k then some v else d.lookup k' := by
  unfold dictSet
  by_cases hany : d.any (fun e => e.1 = k) = true
  · rw [if_pos hany]
    by_cases hk : k' = k
    · subst hk; rw [if_pos rfl]; exact map_lookup_self hany
    · rw [if_neg hk]; exact map_lookup_other hk
  · rw [if_neg hany, lookup_append]
    have hnm : k ∉ d.map Prod.fst := not_mem_keys_of_any_eq_false hany
    by_cases hk : k' = k
    · subst hk
      rw [lookup_eq_none_of_not_mem_keys hnm, Option.none_or, lookup_cons', if_pos rfl]
      simp
    · rw [if_neg hk, lookup_cons', if_neg hk]
      show (d.lookup k').or (List.lookup k' []) = d.lookup k'
      exact Option.or_none

theorem lookup_dictUpdate (u : List (String × PyVal)) (hu : (u.map Prod.fst).Nodup) :
    ∀ (m : List (String × PyVal)) (k : String),
      (dictUpdate m u).lookup k = (u.lookup k).or (m.lookup k) := by
  induction u with
  | nil => intro m k; simp [dictUpdate, Option.none_or]
  | cons e u' ih =>
      obtain ⟨k0, v0⟩ := e
      intro m k
      simp only [List.map_cons, List.nodup_cons] at hu
      have step : dictUpdate m ((k0, v0) :: u') = dictUpdate (dictSet m k0 v0) u' := by
        simp [dictUpdate]
      rw [step, ih hu.2, lookup_dictSet, lookup_cons']
      by_cases hk : k = k0
      · subst hk
        rw [if_pos rfl, if_pos rfl]
        have hnone : u'.lookup k = Option.none := lookup_eq_none_of_not_mem_keys hu.1
        rw [hnone, Option.none_or]
        rfl
      · rw [if_neg hk, if_neg hk]

theorem dictSet_append_of_not_mem {m : List (String × PyVal)} {k : String} {v : PyVal}
    (h : k ∉ m.map Prod.fst) : dictSet m k v = m ++ [(k, v)] := by
  unfold dictSet
  rw [if_neg]
  intro hany
  rw [List.any_eq_true] at hany
  obtain ⟨e, he, hke⟩ := hany
  exact h (List.mem_map.mpr ⟨e, he, by simpa using hke⟩)

theorem dictUpdate_eq_append (u : List (String × PyVal)) (hu : (u.map Prod.fst).Nodup) :
    ∀ (m : List (String × PyVal)), (∀ x ∈ u.map Prod.fst, x ∉ m.map Prod.fst) →
      dictUpdate m u = m ++ u := by
  induction u with
  | nil => intro m _; simp [dictUpdate]
  | cons e u' ih =>
      intro m hdisj
      simp only [List.map_cons, List.nodup_cons] at hu
      have step : dictUpdate m (e :: u') = dictUpdate (dictSet m e.1 e.2) u' := by
        simp [dictUpdate]
      rw [step, dictSet_append_of_not_mem (hdisj e.1 (by simp))]
      rw [ih hu.2 (m ++ [(e.1, e.2)]) ?_]
      · simp
      · intro x hx
        have hx' : x ∈ (e :: u').map Prod.fst := by simp [hx]
        intro hmem
        rw [List.map_append, List.mem_append] at hmem
        rcases hmem with hm | hsing
        · exact hdisj x hx' hm
        · simp only [List.map_cons, List.map_nil, List.mem_singleton] at hsing
          exact hu.1 (hsing ▸ hx)

theorem dictFromPairs_self (u : List (String × PyVal)) (hu : (u.map Prod.fst).Nodup) :
    dictFromPairs u = u := by
  have := dictUpdate_eq_append u hu [] (by intro x _ hx; simp at hx)
  simpa [dictFromPairs] using this

theorem getFile_setFile_self (fs : FS) (p c : String) :
    (fs.setFile p c).getFile p = some c := by
  show (if fs.files.any (fun e => e.1 = p) then
      fs.files.map (fun e => if e.1 = p then (p, c) else e)
    else fs.files ++ [(p, c)]).lookup p = some c
  by_cases hany : fs.files.any (fun e => e.1 = p) = true
  · rw [if_pos hany]
    exact map_lookup_self hany
  · rw [if_neg hany, lookup_append,
      lookup_eq_none_of_not_mem_keys (not_mem_keys_of_any_eq_false hany), Option.none_or,
      lookup_cons', if_pos rfl]

theorem isFile_of_getFile {fs : FS} {p c : String} (h : fs.getFile p = some c) :
    fs.isFile p = true := by
  simp [FS.isFile, h]

theorem pathExists_of_getFile {fs : FS} {p c : String} (h : fs.getFile p = some c) :
    fs.pathExists p = true := by
  simp [FS.pathExists, isFile_of_getFile h]

/-! ### The shape of `write` and `read` under the usual preconditions -/

theorem write_eq {fs : FS} {p : String} (data : PyVal) (ind : Nat) (ascii cd : Bool)
    (h1 : fs.isDir p = false) (h2 : fs.isDir (parentPath p) = true) :
    write p data ind ascii cd fs =
      (match (dumps data ind ascii).2 with
        | some e =>
            (Except.error (JSONErr.base ("Data is not JSON-serializable: " ++ e)),
              fs.setFile p (String.mk (dumps data ind ascii).1))
        | Option.none => (Except.ok (), fs.setFile p (String.mk (dumps data ind ascii).1))) := by
  have hpar : fs.pathExists (parentPath p) = true := by
    simp [FS.pathExists, h2]
  unfold write
  simp only [hpar, h1, h2, Bool.not_true, Bool.and_false, if_false, Bool.false_eq_true,
    if_neg (Bool.false_ne_true)]

theorem read_invalid_eq {fs : FS} {p c : String} {e : DecErr}
    (hc : fs.getFile p = some c) (he : loads c = Except.error e) :
    read fs p =
      Except.error (JSONErr.base ("Invalid JSON in file " ++ p ++ ": " ++ decErrStr c e)) := by
  unfold read
  rw [if_neg (by simp [pathExists_of_getFile hc])]
  simp only [hc, he]

theorem read_valid_eq {fs : FS} {p c : String} {v : PyVal}
    (hc : fs.getFile p = some c) (hv : loads c = Except.ok v) :
    read fs p = Except.ok v := by
  unfold read
  rw [if_neg (by simp [pathExists_of_getFile hc])]
  simp only [hc, hv]

/-! ### The encoder succeeds on serializable values -/

theorem encItems_ok {ascii : Bool} : ∀ (xs : List PyVal) (x : PyVal) (ind lvl : Nat),
    (∀ z ∈ x :: xs, ∀ ind' lvl' : Nat, (encVal ascii ind' lvl' z).2 = Option.none) →
    (encItems ascii ind lvl x xs).2 = Option.none := by
  intro xs
  induction xs with
  | nil =>
      intro x ind lvl h
      rw [encItems]
      exact h x (by simp) ind lvl
  | cons y ys ih =>
      intro x ind lvl h
      rw [encItems]
      simp only [h x (by simp) ind lvl]
      exact ih y ind lvl (fun z hz => h z (by simp at hz ⊢; tauto))

theorem encMembers_ok {ascii : Bool} : ∀ (kvs : List (String × PyVal)) (k : String) (v : PyVal)
    (ind lvl : Nat),
    (∀ z ∈ (k, v) :: kvs, ∀ ind' lvl' : Nat, (encVal ascii ind' lvl' z.2).2 = Option.none) →
    (encMembers ascii ind lvl k v kvs).2 = Option.none := by
  intro kvs
  induction kvs with
  | nil =>
      intro k v ind lvl h
      rw [encMembers]
      exact h (k, v) (by simp) ind lvl
  | cons kv2 rest ih =>
      intro k v ind lvl h
      obtain ⟨k2, v2⟩ := kv2
      rw [encMembers]
      simp only [h (k, v) (by simp) ind lvl]
      exact ih k2 v2 ind lvl (fun z hz => h z (by simp at hz ⊢; tauto))

theorem encVal_ok_of_serializable {v : PyVal} (h : Serializable v) :
    ∀ (ascii : Bool) (ind lvl : Nat), (encVal ascii ind lvl v).2 = Option.none := by
  induction h with
  | none => intro ascii ind lvl; rw [encVal]
  | bool b => intro ascii ind lvl; rw [encVal]
  | int n => intro ascii ind lvl; rw [encVal]
  | nan => intro ascii ind lvl; rw [encVal]
  | inf => intro ascii ind lvl; rw [encVal]
  | ninf => intro ascii ind lvl; rw [encVal]
  | pfloat lit => intro ascii ind lvl; rw [encVal]
  | str s => intro ascii ind lvl; rw [encVal]
  | list xs hxs ih =>
      intro ascii ind lvl
      cases xs with
      | nil => rw [encVal]
      | cons x xs' =>
          rw [encVal]
          have hok := encItems_ok xs' x ind (lvl + 1) (fun z hz => ih z hz ascii)
          simp only [hok]
  | dict kvs hkvs ih =>
      intro ascii ind lvl
      cases kvs with
      | nil => rw [encVal]
      | cons kv kvs' =>
          obtain ⟨k, v0⟩ := kv
          rw [encVal]
          have hok := encMembers_ok kvs' k v0 ind (lvl + 1)
            (fun z hz => ih z hz ascii)
          simp only [hok]

theorem dumps_ok_of_serializable {v : PyVal} (h : Serializable v) (ind : Nat) (ascii : Bool) :
    (dumps v ind ascii).2 = Option.none :=
  encVal_ok_of_serializable h ascii ind 0

theorem write_ok_eq {fs : FS} {p : String} {data : PyVal} (ind : Nat) (ascii cd : Bool)
    (hser : Serializable data)
    (h1 : fs.isDir p = false) (h2 : fs.isDir (parentPath p) = true) :
    write p data ind ascii cd fs =
      (Except.ok (), fs.setFile p (String.mk (dumps data ind ascii).1)) := by
  rw [write_eq data ind ascii cd h1 h2]
  simp only [dumps_ok_of_serializable hser]

/-! ### Claim C1: `write` on non-JSON-representable data -/

/-- Claim C1, counterexample.  The claim says `write(p, data)` fails with a
serialization-error, rather than writing a file, for every `data` holding a
value that is not JSON-representable, naming non-finite numbers such as NaN
as an instance.  On the code, `json.dump` keeps its default `allow_nan=True`,
so writing `float('nan')` succeeds and leaves a file holding `NaN`: at the
concrete path `p.json` on an empty filesystem the call returns success and
the file exists with content `NaN`. -/
theorem C1_counterexample :
    (write "p.json" PyVal.nan 4 false true (FS.mk [] [])).1 = Except.ok () ∧
    (write "p.json" PyVal.nan 4 false true (FS.mk [] [])).2.getFile "p.json" = some "NaN" := by
  have h1 : (FS.mk [] []).isDir "p.json" = false := rfl
  have h2 : (FS.mk [] []).isDir (parentPath "p.json") = true := rfl
  rw [write_eq PyVal.nan 4 false true h1 h2]
  have hd : dumps PyVal.nan 4 false = ("NaN".toList, Option.none) := by
    unfold dumps
    rw [encVal]
  rw [hd]
  exact ⟨rfl, getFile_setFile_self (FS.mk [] []) "p.json" (String.mk "NaN".toList)⟩

/-- Claim C1, amended.  `write(p, data)` raises the serialization error (the
base `JSONError`, message `Data is not JSON-serializable: ...`) when the
encoder actually fails, as it does for a non-serializable object; non-finite
numbers do not fail (see the counterexample).  The failure does not leave
the filesystem untouched: the file was already opened for writing, so it
exists, truncated to the chunks emitted before the raise (none, for a
top-level object).  The hypotheses say `p` itself is not a directory and its
parent directory exists, the situation in which `open` succeeds. -/
theorem C1_theorem (fs : FS) (p cls : String)
    (h1 : fs.isDir p = false) (h2 : fs.isDir (parentPath p) = true) :
    (write p (PyVal.object cls) 4 false true fs).1 =
      Except.error (JSONErr.base
        ("Data is not JSON-serializable: " ++
          ("Object of type " ++ cls ++ " is not JSON serializable"))) ∧
    (write p (PyVal.object cls) 4 false true fs).2.getFile p = some "" := by
  rw [write_eq (PyVal.object cls) 4 false true h1 h2]
  have hd : dumps (PyVal.object cls) 4 false =
      ([], some ("Object of type " ++ cls ++ " is not JSON serializable")) := by
    unfold dumps
    rw [encVal]
  rw [hd]
  exact ⟨rfl, getFile_setFile_self fs p (String.mk [])⟩

/-- Claim C1, witness for the amended theorem at a concrete input. -/
theorem C1_witness :
    (FS.mk [] []).isDir "w.json" = false ∧
    (FS.mk [] []).isDir (parentPath "w.json") = true ∧
    (write "w.json" (PyVal.object "Foo") 4 false true (FS.mk [] [])).1 =
      Except.error (JSONErr.base
        ("Data is not JSON-serializable: " ++
          ("Object of type " ++ "Foo" ++ " is not JSON serializable"))) :=
  ⟨rfl, rfl, (C1_theorem (FS.mk [] []) "w.json" "Foo" rfl rfl).1⟩

/-! ### Claim C2: `read` on a file that is not valid JSON -/

/-- Claim C2, counterexample.  The claim says the error is of the
decode/validation kind as opposed to the base kind; the code raises the base
`JSONError` itself (`JSONValidationError` is never raised anywhere), as the
concrete file `f.json` holding `not json` shows. -/
theorem C2_counterexample :
    read (FS.mk [("f.json", "not json")] []) "f.json" =
      Except.error
        (JSONErr.base "Invalid JSON in file f.json: Expecting value: line 1 column 1 (char 0)") ∧
    (JSONErr.base
      "Invalid JSON in file f.json: Expecting value: line 1 column 1 (char 0)").isValidationError
      = false := ⟨rfl, rfl⟩

/-- Claim C2, amended.  For every existing file whose content does not parse
as JSON, `read` fails with the base-kind `JSONError` (not the
validation subclass), and its message contains both the path and the
underlying decode error detail (`str` of the `JSONDecodeError`). -/
theorem C2_theorem (fs : FS) (p c : String) (e : DecErr)
    (hc : fs.getFile p = some c) (he : loads c = Except.error e) :
    read fs p =
      Except.error (JSONErr.base ("Invalid JSON in file " ++ p ++ ": " ++ decErrStr c e)) ∧
    containsSub ("Invalid JSON in file " ++ p ++ ": " ++ decErrStr c e) p ∧
    containsSub ("Invalid JSON in file " ++ p ++ ": " ++ decErrStr c e) (decErrStr c e) := by
  refine ⟨read_invalid_eq hc he, ?_, ?_⟩
  · exact ⟨"Invalid JSON in file ", ": " ++ decErrStr c e, by simp [String.append_assoc]⟩
  · exact ⟨"Invalid JSON in file " ++ p ++ ": ", "", by simp⟩

/-- Claim C2, witness for the amended theorem at a concrete input. -/
theorem C2_witness :
    (FS.mk [("g.json", "not json")] []).getFile "g.json" = some "not json" ∧
    loads "not json" = Except.error (DecErr.mk "Expecting value" 0) ∧
    read (FS.mk [("g.json", "not json")] []) "g.json" =
      Except.error (JSONErr.base
        ("Invalid JSON in file " ++ "g.json" ++ ": " ++
          decErrStr "not json" (DecErr.mk "Expecting value" 0))) :=
  ⟨rfl, rfl,
    (C2_theorem (FS.mk [("g.json", "not json")] []) "g.json" "not json"
      (DecErr.mk "Expecting value" 0) rfl rfl).1⟩

/-! ### Claim C4: `exists` never raises and answers exactly parse success -/

/-- Claim C4.  `exists` is a total function of the embedding (it never
raises by construction, every failure collapsing to `false`), and it
returns `true` exactly when the path names a regular file whose content
parses as JSON; a missing path, a directory, or a parse failure all yield
`false`. -/
theorem C4_theorem (fs : FS) (p : String) :
    exists' fs p = true ↔ ∃ c, fs.getFile p = some c ∧ (loads c).isOk = true := by
  unfold exists'
  rcases hgf : fs.getFile p with _ | c
  · constructor
    · intro h
      exfalso
      by_cases hpe : fs.pathExists p = true
      · rw [if_neg (by simp [hpe])] at h
        simp at h
      · rw [if_pos (by simp [Bool.not_eq_true] at hpe ⊢; exact hpe)] at h
        exact Bool.false_ne_true h
    · rintro ⟨c, hc, _⟩
      exact Option.noConfusion hc
  · have hpe := pathExists_of_getFile hgf
    rw [if_neg (by simp [hpe])]
    constructor
    · intro h
      refine ⟨c, rfl, ?_⟩
      simpa using h
    · rintro ⟨c', hc', h⟩
      cases hc'
      simpa using h

/-! ### Claim C7: `auto` on a missing directory -/

/-- Claim C7.  On a directory that does not exist, `auto` with
`create_if_not_exists` creates the directory together with every missing
ancestor, touches no file, and returns the empty mapping; without the flag
it fails with the file-error kind (`JSONFileError`), message
`Directory not found`. -/
theorem C7_theorem (fs : FS) (d : String) (recursive : Bool)
    (h : fs.pathExists d = false) :
    (auto d recursive true fs = (Except.ok [], fs.mkdirParents d) ∧
      (fs.mkdirParents d).isDir d = true ∧
      (∀ a ∈ ancestorPrefixes d, a ∈ (fs.mkdirParents d).dirs) ∧
      (fs.mkdirParents d).files = fs.files) ∧
    (auto d recursive false fs =
        (Except.error (JSONErr.file ("Directory not found: " ++ d)), fs) ∧
      (JSONErr.file ("Directory not found: " ++ d)).isFileError = true) := by
  refine ⟨⟨?_, ?_, ?_, rfl⟩, ⟨?_, rfl⟩⟩
  · unfold auto
    rw [if_pos (by simp [h])]
    rfl
  · simp [FS.isDir, FS.mkdirParents]
  · intro a ha
    simp only [FS.mkdirParents]
    exact List.mem_append.mpr (Or.inl (List.mem_append.mpr (Or.inr ha)))
  · unfold auto
    rw [if_pos (by simp [h])]
    rfl

/-- Claim C7, witness at a concrete missing directory with a missing
ancestor. -/
theorem C7_witness :
    (FS.mk [] []).pathExists "a/b" = false ∧
    auto "a/b" true true (FS.mk [] []) = (Except.ok [], (FS.mk [] []).mkdirParents "a/b") ∧
    "a" ∈ ((FS.mk [] []).mkdirParents "a/b").dirs ∧
    (auto "a/b" true false (FS.mk [] [])).1 =
      Except.error (JSONErr.file ("Directory not found: " ++ "a/b")) := by
  have h := C7_theorem (FS.mk [] []) "a/b" true rfl
  exact ⟨rfl, h.1.1, h.1.2.2.1 "a" (by decide), by rw [h.2.1]⟩

/-! ### Claim C9: `create` does not clobber an existing file -/

/-- Claim C9.  On an existing path without `overwrite`, `create` returns
`false` and performs no write at all: the filesystem comes back unchanged,
so in particular the content at `p` is untouched. -/
theorem C9_theorem (fs : FS) (p : String) (data : Option PyVal) (ind : Nat) (ascii : Bool)
    (h : fs.pathExists p = true) :
    create p data false ind ascii fs = (Except.ok false, fs) ∧
    (create p data false ind ascii fs).2.getFile p = fs.getFile p := by
  have heq : create p data false ind ascii fs = (Except.ok false, fs) := by
    unfold create
    rw [if_pos (by simp [h])]
  exact ⟨heq, by rw [heq]⟩

/-- Claim C9, witness at a concrete existing file. -/
theorem C9_witness :
    (FS.mk [("f.json", "1")] []).pathExists "f.json" = true ∧
    create "f.json" (some PyVal.none) false 4 false (FS.mk [("f.json", "1")] []) =
      (Except.ok false, FS.mk [("f.json", "1")] []) :=
  ⟨rfl, (C9_theorem (FS.mk [("f.json", "1")] []) "f.json" (some PyVal.none) 4 false rfl).1⟩

/-! ### Claim C10: `update` on an invalid-JSON file propagates before writing -/

/-- Claim C10.  When the existing content does not parse, `update`
propagates exactly the decode error `read` raises (the base `JSONError`
carrying path and detail), and the filesystem, in particular the file at
`p`, is unchanged: the failure happens before any write is attempted. -/
theorem C10_theorem (fs : FS) (p c : String) (e : DecErr)
    (updates : List (String × PyVal)) (ci : Bool)
    (hc : fs.getFile p = some c) (he : loads c = Except.error e) :
    update p updates ci fs =
      (Except.error (JSONErr.base ("Invalid JSON in file " ++ p ++ ": " ++ decErrStr c e)), fs) ∧
    (update p updates ci fs).2.getFile p = some c := by
  have heq : update p updates ci fs =
      (Except.error (JSONErr.base ("Invalid JSON in file " ++ p ++ ": " ++ decErrStr c e)), fs) := by
    unfold update
    rw [if_pos (pathExists_of_getFile hc), read_invalid_eq hc he]
  exact ⟨heq, by rw [heq]; exact hc⟩

/-- Claim C10, witness at a concrete invalid-JSON file. -/
theorem C10_witness :
    (FS.mk [("bad.json", "\x7boops")] []).getFile "bad.json" = some "\x7boops" ∧
    loads "\x7boops" =
      Except.error (DecErr.mk "Expecting property name enclosed in double quotes" 1) ∧
    update "bad.json" [] false (FS.mk [("bad.json", "\x7boops")] []) =
      (Except.error (JSONErr.base
        ("Invalid JSON in file " ++ "bad.json" ++ ": " ++
          decErrStr "\x7boops" (DecErr.mk "Expecting property name enclosed in double quotes" 1))),
        FS.mk [("bad.json", "\x7boops")] []) :=
  ⟨rfl, rfl,
    (C10_theorem (FS.mk [("bad.json", "\x7boops")] []) "bad.json" "\x7boops"
      (DecErr.mk "Expecting property name enclosed in double quotes" 1) [] false rfl rfl).1⟩

/-! ### Round-trip groundwork: characters, digits, whitespace -/

theorem rt_serializable {v : PyVal} (h : Roundtrippable v) : Serializable v := by
  induction h with
  | none => exact Serializable.none
  | bool b => exact Serializable.bool b
  | int n => exact Serializable.int n
  | str s => exact Serializable.str s
  | list xs hxs ih => exact Serializable.list xs ih
  | dict kvs hkvs hnd ih => exact Serializable.dict kvs ih

theorem ws_num_facts {c : Char} (h : isWsChar c = true) :
    c.isDigit = false ∧ c ≠ '.' ∧ c ≠ 'e' ∧ c ≠ 'E' := by
  simp only [isWsChar, Bool.or_eq_true, decide_eq_true_eq] at h
  rcases h with ((h | h) | h) | h <;> subst h <;>
    exact ⟨rfl, by decide, by decide, by decide⟩

theorem numBoundary_append_close {w : List Char} (hw : ∀ c ∈ w, isWsChar c = true)
    {c : Char} (hc : c.isDigit = false ∧ c ≠ '.' ∧ c ≠ 'e' ∧ c ≠ 'E') (rest : List Char) :
    numBoundary (w ++ c :: rest) := by
  cases w with
  | nil => exact hc
  | cons w0 ws => exact ws_num_facts (hw w0 (by simp))

theorem skipWs_cons_not_ws {c : Char} (h : isWsChar c = false) (l : List Char) (pos : Nat) :
    skipWs (c :: l) pos = (c :: l, pos) := by
  simp [skipWs, h]

theorem skipWs_to_head {w : List Char} (hw : ∀ ch ∈ w, isWsChar ch = true)
    {c : Char} (hc : isWsChar c = false) (l : List Char) :
    ∀ pos, ∃ q, skipWs (w ++ c :: l) pos = (c :: l, q) := by
  induction w with
  | nil => intro pos; exact ⟨pos, skipWs_cons_not_ws hc l pos⟩
  | cons w0 ws ih =>
      intro pos
      have h0 := hw w0 (by simp)
      obtain ⟨q, hq⟩ := ih (fun ch hch => hw ch (by simp [hch])) (pos + 1)
      exact ⟨q, by simp [skipWs, h0, hq]⟩

theorem sp_all_ws (n : Nat) : ∀ c ∈ sp n, isWsChar c = true := by
  intro c hc
  simp only [sp, List.mem_replicate] at hc
  rw [hc.2]
  rfl

theorem nl_sp_all_ws (n : Nat) : ∀ c ∈ '\n' :: sp n, isWsChar c = true := by
  intro c hc
  rcases List.mem_cons.mp hc with h | h
  · rw [h]; rfl
  · exact sp_all_ws n c h

theorem digitChar_toNat {d : Nat} (h : d < 10) : (digitChar d).toNat = 48 + d := by
  interval_cases d <;> rfl

theorem digitChar_isDigit {d : Nat} (h : d < 10) : (digitChar d).isDigit = true := by
  interval_cases d <;> rfl

theorem isDigit_char_range {c : Char} (h : c.isDigit = true) : 48 ≤ c.toNat ∧ c.toNat ≤ 57 := by
  simp only [Char.isDigit, decide_eq_true_eq, Bool.and_eq_true] at h
  exact ⟨h.1, h.2⟩

theorem digit_not_special {c : Char} (h : c.isDigit = true) :
    isWsChar c = false ∧ c ≠ '"' ∧ c ≠ '{' ∧ c ≠ '[' ∧ c ≠ ']' ∧ c ≠ '}' ∧
      c ≠ 'n' ∧ c ≠ 't' ∧ c ≠ 'f' ∧ c ≠ 'N' ∧ c ≠ 'I' ∧ c ≠ '-' := by
  obtain ⟨h1, h2⟩ := isDigit_char_range h
  refine ⟨?_, ?_, ?_, ?_, ?_, ?_, ?_, ?_, ?_, ?_, ?_, ?_⟩ <;>
    first
      | (simp only [isWsChar, Bool.or_eq_false_iff, decide_eq_false_iff_not]
         refine ⟨⟨⟨?_, ?_⟩, ?_⟩, ?_⟩ <;> intro hc <;> rw [hc] at h1 h2 <;> simp at h1 h2)
      | (intro hc; rw [hc] at h1 h2; simp at h1 h2)

theorem natDigits_spec : ∀ (f n : Nat), n < f →
    (natDigits f n ≠ [] ∧ (∀ c ∈ natDigits f n, c.isDigit = true) ∧
      digitsVal (natDigits f n) = n) := by
  intro f
  induction f with
  | zero => intro n h; omega
  | succ f ih =>
      intro n h
      by_cases h10 : n < 10
      · refine ⟨by simp [natDigits, h10], ?_, ?_⟩
        · intro c hc
          simp only [natDigits, if_pos h10, List.mem_singleton] at hc
          rw [hc]
          exact digitChar_isDigit h10
        · simp only [natDigits, if_pos h10, digitsVal, List.foldl_cons, List.foldl_nil]
          rw [digitChar_toNat h10]
          omega
      · have hdiv : n / 10 < f := by
          have h1 : n / 10 < n := Nat.div_lt_self (by omega) (by omega)
          omega
        obtain ⟨hne, hdig, hval⟩ := ih (n / 10) hdiv
        have hmod : n % 10 < 10 := Nat.mod_lt n (by omega)
        refine ⟨by simp [natDigits, h10], ?_, ?_⟩
        · intro c hc
          simp only [natDigits, if_neg h10, List.mem_append, List.mem_singleton] at hc
          rcases hc with hc | hc
          · exact hdig c hc
          · rw [hc]; exact digitChar_isDigit hmod
        · simp only [natDigits, if_neg h10]
          unfold digitsVal
          rw [List.foldl_append]
          simp only [List.foldl_cons, List.foldl_nil]
          unfold digitsVal at hval
          rw [hval, digitChar_toNat hmod]
          omega

theorem natDigits_head_ne_zero : ∀ (f n : Nat), n < f → 1 ≤ n →
    ∃ c t, natDigits f n = c :: t ∧ c ≠ '0' ∧ c.isDigit = true := by
  intro f
  induction f with
  | zero => intro n h; omega
  | succ f ih =>
      intro n h h1
      by_cases h10 : n < 10
      · refine ⟨digitChar n, [], by simp [natDigits, h10], ?_, digitChar_isDigit h10⟩
        intro hc
        have ht := digitChar_toNat h10
        rw [hc] at ht
        have h0 : ('0').toNat = 48 := rfl
        omega
      · have hdiv : n / 10 < f := by
          have : n / 10 < n := Nat.div_lt_self (by omega) (by omega)
          omega
        have hdiv1 : 1 ≤ n / 10 := by
          have : 10 ≤ n := by omega
          omega
        obtain ⟨c, t, heq, hc0, hcd⟩ := ih (n / 10) hdiv hdiv1
        exact ⟨c, t ++ [digitChar (n % 10)], by simp [natDigits, h10, heq], hc0, hcd⟩

/-! ### Round-trip: the number regex reads a rendered integer back -/

theorem takeWhile_eq_of_append {p : Char → Bool} :
    ∀ {a b : List Char}, (∀ c ∈ a, p c = true) →
      (∀ c t, b = c :: t → p c = false) → (a ++ b).takeWhile p = a := by
  intro a
  induction a with
  | nil =>
      intro b _ hb
      cases b with
      | nil => rfl
      | cons c t => simp [List.takeWhile_cons, hb c t rfl]
  | cons x xs ih =>
      intro b ha hb
      have hx := ha x (by simp)
      simp only [List.cons_append, List.takeWhile_cons, hx]
      rw [ih (fun c hc => ha c (by simp [hc])) hb]
      simp

theorem matchFrac_boundary {l : List Char} (hb : numBoundary l) : matchFrac l = ([], l) := by
  cases l with
  | nil => rfl
  | cons c t =>
      obtain ⟨_, hdot, _, _⟩ := hb
      simp [matchFrac, hdot]

theorem matchExp_boundary {l : List Char} (hb : numBoundary l) : matchExp l = ([], l) := by
  cases l with
  | nil => rfl
  | cons e t =>
      cases t with
      | nil => rfl
      | cons s t' =>
          obtain ⟨_, _, he, hE⟩ := hb
          simp [matchExp, he, hE]

theorem matchNumTail_int {l : List Char} (hb : numBoundary l) (neg : Bool) (ipart : List Char) :
    matchNumTail neg ipart l =
      (PyVal.int (if neg then -(digitsVal ipart : Int) else (digitsVal ipart : Int)), l) := by
  unfold matchNumTail
  rw [matchFrac_boundary hb]
  simp only
  rw [matchExp_boundary hb]
  simp

theorem natDigits_zero {f : Nat} (h : 0 < f) : natDigits f 0 = ['0'] := by
  cases f with
  | zero => omega
  | succ f' => simp [natDigits]; rfl

theorem matchNumAfterSign_digits {f n : Nat} {rest : List Char} (hn : n < f)
    (hb : numBoundary rest) (neg : Bool) :
    matchNumAfterSign neg (natDigits f n ++ rest) =
      some (PyVal.int (if neg then -(n : Int) else (n : Int)), rest) := by
  by_cases h0 : n = 0
  · subst h0
    rw [natDigits_zero (by omega)]
    show matchNumAfterSign neg ('0' :: rest) = _
    simp only [matchNumAfterSign]
    have hv : digitsVal ['0'] = 0 := rfl
    rw [matchNumTail_int hb, hv]
    simp
  · obtain ⟨c, t, heq, hc0, hcd⟩ := natDigits_head_ne_zero f n hn (by omega)
    obtain ⟨_, hdigs, hval⟩ := natDigits_spec f n hn
    rw [heq]
    show matchNumAfterSign neg (c :: (t ++ rest)) = _
    simp only [matchNumAfterSign]
    rw [if_neg hc0, if_pos hcd]
    have htw : (t ++ rest).takeWhile Char.isDigit = t := by
      apply takeWhile_eq_of_append
      · intro ch hch
        exact hdigs ch (by rw [heq]; simp [hch])
      · intro ch tl hcase
        rw [hcase] at hb
        exact hb.1
    simp only [htw, List.drop_left]
    rw [matchNumTail_int hb]
    rw [show c :: t = natDigits f n from heq.symm, hval]

theorem matchNumber_intRepr {n : Int} {rest : List Char} (hb : numBoundary rest) :
    matchNumber (intReprL n ++ rest) = some (PyVal.int n, rest) := by
  cases n with
  | ofNat m =>
      have hlt : m < m + 1 := Nat.lt_succ_self m
      obtain ⟨hne, hdigs, _⟩ := natDigits_spec (m + 1) m hlt
      rcases hd : natDigits (m + 1) m with _ | ⟨c, t⟩
      · exact absurd hd hne
      · have hcd : c.isDigit = true := hdigs c (by rw [hd]; simp)
        have hcm := digit_not_special hcd
        show matchNumber (natDigits (m + 1) m ++ rest) = _
        rw [hd]
        show matchNumber (c :: (t ++ rest)) = _
        simp only [matchNumber]
        rw [if_neg hcm.2.2.2.2.2.2.2.2.2.2.2]
        rw [show (c :: (t ++ rest) : List Char) = natDigits (m + 1) m ++ rest by rw [hd]; rfl]
        rw [matchNumAfterSign_digits hlt hb false]
        simp
  | negSucc m =>
      show matchNumber ('-' :: (natDigits (m + 2) (m + 1) ++ rest)) = _
      simp only [matchNumber, if_true]
      rw [matchNumAfterSign_digits (Nat.lt_succ_self (m + 1)) hb true]
      simp [Int.negSucc_eq]

/-! ### Round-trip: the string scanner reads an escaped string back -/

theorem hexVal_hexDigitChar {d : Nat} (h : d < 16) : hexVal? (hexDigitChar d) = some d := by
  interval_cases d <;> rfl

theorem hex4_hex4 {n : Nat} (h : n < 65536) :
    hex4? (hexDigitChar (n / 4096 % 16)) (hexDigitChar (n / 256 % 16))
      (hexDigitChar (n / 16 % 16)) (hexDigitChar (n % 16)) = some n := by
  unfold hex4?
  rw [hexVal_hexDigitChar (Nat.mod_lt _ (by omega)),
    hexVal_hexDigitChar (Nat.mod_lt _ (by omega)),
    hexVal_hexDigitChar (Nat.mod_lt _ (by omega)),
    hexVal_hexDigitChar (Nat.mod_lt _ (by omega))]
  simp only
  congr 1
  omega

theorem escapeChars_cons (a : Bool) (c : Char) (l : List Char) :
    escapeChars a (c :: l) = escCharL a c ++ escapeChars a l := by
  simp [escapeChars]

theorem scanStringF_quote (f bgn pos : Nat) (X : List Char) :
    scanStringF (f + 1) bgn ('"' :: X) pos = Except.ok ([], X, pos + 1) := by
  simp [scanStringF]

theorem scanStringF_backslash (f bgn pos : Nat) (X : List Char) :
    scanStringF (f + 1) bgn ('\\' :: X) pos = scanEscF f bgn X (pos + 1) := by
  simp [scanStringF]

theorem scanStringF_plain {c : Char} (h1 : c ≠ '"') (h2 : c ≠ '\\') (h3 : ¬ c.toNat < 32)
    (f bgn pos : Nat) (X : List Char) :
    scanStringF (f + 1) bgn (c :: X) pos =
      (scanStringF f bgn X (pos + 1)).map (fun r => (c :: r.1, r.2)) := by
  simp only [scanStringF]
  rw [if_neg h1, if_neg h2, if_neg (by simpa using h3)]

theorem scanEscF_short {e ch : Char} (h1 : e ≠ 'u') (h2 : escMap e = some ch)
    (f bgn pos : Nat) (X : List Char) :
    scanEscF (f + 1) bgn (e :: X) pos =
      (scanStringF f bgn X (pos + 1)).map (fun r => (ch :: r.1, r.2)) := by
  simp only [scanEscF]
  split
  · rename_i heq; exact absurd heq (by simp)
  · rename_i a b c d rest heq
    injection heq with he _
    exact absurd he h1
  · rename_i heq
    injection heq with he hX
    subst he; subst hX
    rw [if_neg h1, h2]

theorem scanEscF_u (a b c d : Char) {n : Nat} (hn : hex4? a b c d = some n)
    (hs : ¬ (55296 ≤ n ∧ n ≤ 56319)) (f bgn pos : Nat) (X : List Char) :
    scanEscF (f + 1) bgn ('u' :: a :: b :: c :: d :: X) pos =
      (scanStringF f bgn X (pos + 5)).map (fun r => (Char.ofNat n :: r.1, r.2)) := by
  simp only [scanEscF]
  rw [hn]
  simp only
  rw [if_neg (by simpa using hs)]

theorem scanStringF_step_plain {c : Char} (h1 : c ≠ '"') (h2 : c ≠ '\\') (h3 : ¬ c.toNat < 32)
    {f bgn pos : Nat} {X cs rest : List Char} {q : Nat}
    (hq : scanStringF f bgn X (pos + 1) = Except.ok (cs, rest, q)) :
    scanStringF (f + 1) bgn (c :: X) pos = Except.ok (c :: cs, rest, q) := by
  rw [scanStringF_plain h1 h2 h3, hq]; rfl

theorem scanStringF_step_short {c e : Char} (he : e ≠ 'u') (hmap : escMap e = some c)
    {f bgn pos : Nat} {X cs rest : List Char} {q : Nat}
    (hq : scanStringF f bgn X (pos + 2) = Except.ok (cs, rest, q)) :
    scanStringF (f + 2) bgn ('\\' :: e :: X) pos = Except.ok (c :: cs, rest, q) := by
  rw [show f + 2 = (f + 1) + 1 from rfl, scanStringF_backslash, scanEscF_short he hmap, hq]; rfl

theorem scanStringF_step_u {c : Char} (h32 : c.toNat < 32)
    {f bgn pos : Nat} {X cs rest : List Char} {q : Nat}
    (hq : scanStringF f bgn X (pos + 6) = Except.ok (cs, rest, q)) :
    scanStringF (f + 2) bgn (('\\' :: 'u' :: hex4 c.toNat) ++ X) pos =
      Except.ok (c :: cs, rest, q) := by
  have h65536 : c.toNat < 65536 := by omega
  rw [show (('\\' :: 'u' :: hex4 c.toNat) ++ X : List Char) =
    '\\' :: 'u' :: hexDigitChar (c.toNat / 4096 % 16) :: hexDigitChar (c.toNat / 256 % 16) ::
      hexDigitChar (c.toNat / 16 % 16) :: hexDigitChar (c.toNat % 16) :: X from rfl]
  rw [show f + 2 = (f + 1) + 1 from rfl, scanStringF_backslash,
    scanEscF_u _ _ _ _ (hex4_hex4 h65536) (by omega), hq]
  simp [Except.map, Char.ofNat_toNat]

theorem scanStringF_complete : ∀ (cs : List Char) (f bgn pos : Nat) (rest : List Char),
    (escapeChars false cs).length < f →
    ∃ q, scanStringF f bgn (escapeChars false cs ++ '"' :: rest) pos =
      Except.ok (cs, rest, q) := by
  intro cs
  induction cs with
  | nil =>
      intro f bgn pos rest h
      have h0 : escapeChars false [] = ([] : List Char) := rfl
      rw [h0] at h ⊢
      obtain ⟨f1, rfl⟩ : ∃ f1, f = f1 + 1 := ⟨f - 1, by simp at h; omega⟩
      exact ⟨pos + 1, scanStringF_quote f1 bgn pos rest⟩
  | cons c cs ih =>
      intro f bgn pos rest h
      rw [escapeChars_cons] at h ⊢
      by_cases hbs : c = '\\'
      · subst hbs
        rw [show escCharL false '\\' = ['\\', '\\'] from rfl] at h ⊢
        obtain ⟨f2, rfl⟩ : ∃ f2, f = f2 + 2 := ⟨f - 2, by simp at h; omega⟩
        obtain ⟨q, hq⟩ := ih f2 bgn (pos + 2) rest (by simp at h ⊢; omega)
        exact ⟨q, scanStringF_step_short (show ('\\':Char) ≠ 'u' by decide) (show escMap '\\' = some '\\' from rfl) hq⟩
      by_cases hqt : c = '"'
      · subst hqt
        rw [show escCharL false '"' = ['\\', '"'] from rfl] at h ⊢
        obtain ⟨f2, rfl⟩ : ∃ f2, f = f2 + 2 := ⟨f - 2, by simp at h; omega⟩
        obtain ⟨q, hq⟩ := ih f2 bgn (pos + 2) rest (by simp at h ⊢; omega)
        exact ⟨q, scanStringF_step_short (show ('"':Char) ≠ 'u' by decide) (show escMap '"' = some '"' from rfl) hq⟩
      by_cases h32 : c.toNat < 32
      · by_cases hn : c = '\n'
        · subst hn
          rw [show escCharL false '\n' = ['\\', 'n'] from rfl] at h ⊢
          obtain ⟨f2, rfl⟩ : ∃ f2, f = f2 + 2 := ⟨f - 2, by simp at h; omega⟩
          obtain ⟨q, hq⟩ := ih f2 bgn (pos + 2) rest (by simp at h ⊢; omega)
          exact ⟨q, scanStringF_step_short (show ('n':Char) ≠ 'u' by decide) (show escMap 'n' = some '\n' from rfl) hq⟩
        by_cases hr : c = '\r'
        · subst hr
          rw [show escCharL false '\r' = ['\\', 'r'] from rfl] at h ⊢
          obtain ⟨f2, rfl⟩ : ∃ f2, f = f2 + 2 := ⟨f - 2, by simp at h; omega⟩
          obtain ⟨q, hq⟩ := ih f2 bgn (pos + 2) rest (by simp at h ⊢; omega)
          exact ⟨q, scanStringF_step_short (show ('r':Char) ≠ 'u' by decide) (show escMap 'r' = some '\r' from rfl) hq⟩
        by_cases ht : c = '\t'
        · subst ht
          rw [show escCharL false '\t' = ['\\', 't'] from rfl] at h ⊢
          obtain ⟨f2, rfl⟩ : ∃ f2, f = f2 + 2 := ⟨f - 2, by simp at h; omega⟩
          obtain ⟨q, hq⟩ := ih f2 bgn (pos + 2) rest (by simp at h ⊢; omega)
          exact ⟨q, scanStringF_step_short (show ('t':Char) ≠ 'u' by decide) (show escMap 't' = some '\t' from rfl) hq⟩
        by_cases h8 : c.toNat = 8
        · have hc : c = Char.ofNat 8 := by rw [← h8, Char.ofNat_toNat]
          subst hc
          rw [show escCharL false (Char.ofNat 8) = ['\\', 'b'] from rfl] at h ⊢
          obtain ⟨f2, rfl⟩ : ∃ f2, f = f2 + 2 := ⟨f - 2, by simp at h; omega⟩
          obtain ⟨q, hq⟩ := ih f2 bgn (pos + 2) rest (by simp at h ⊢; omega)
          exact ⟨q, scanStringF_step_short (show ('b':Char) ≠ 'u' by decide) (show escMap 'b' = some (Char.ofNat 8) from rfl) hq⟩
        by_cases h12 : c.toNat = 12
        · have hc : c = Char.ofNat 12 := by rw [← h12, Char.ofNat_toNat]
          subst hc
          rw [show escCharL false (Char.ofNat 12) = ['\\', 'f'] from rfl] at h ⊢
          obtain ⟨f2, rfl⟩ : ∃ f2, f = f2 + 2 := ⟨f - 2, by simp at h; omega⟩
          obtain ⟨q, hq⟩ := ih f2 bgn (pos + 2) rest (by simp at h ⊢; omega)
          exact ⟨q, scanStringF_step_short (show ('f':Char) ≠ 'u' by decide) (show escMap 'f' = some (Char.ofNat 12) from rfl) hq⟩
        · have hesc : escCharL false c = '\\' :: 'u' :: hex4 c.toNat := by
            unfold escCharL
            rw [if_neg hbs, if_neg hqt, if_neg hn, if_neg hr, if_neg ht,
              if_neg h8, if_neg h12, if_pos h32]
          rw [hesc] at h ⊢
          obtain ⟨f2, rfl⟩ : ∃ f2, f = f2 + 2 := ⟨f - 2, by simp [hex4] at h; omega⟩
          obtain ⟨q, hq⟩ := ih f2 bgn (pos + 6) rest (by simp [hex4] at h ⊢; omega)
          refine ⟨q, ?_⟩
          rw [show ((('\\' :: 'u' :: hex4 c.toNat) ++ escapeChars false cs) ++ '"' :: rest
              : List Char) =
            ('\\' :: 'u' :: hex4 c.toNat) ++ (escapeChars false cs ++ '"' :: rest) by simp]
          exact scanStringF_step_u h32 hq
      · have hn : c ≠ '\n' := fun hc => h32 (by rw [hc]; decide)
        have hr : c ≠ '\r' := fun hc => h32 (by rw [hc]; decide)
        have ht : c ≠ '\t' := fun hc => h32 (by rw [hc]; decide)
        have h8 : c.toNat ≠ 8 := fun hc => h32 (by omega)
        have h12 : c.toNat ≠ 12 := fun hc => h32 (by omega)
        have hesc : escCharL false c = [c] := by
          unfold escCharL
          rw [if_neg hbs, if_neg hqt, if_neg hn, if_neg hr, if_neg ht,
            if_neg h8, if_neg h12, if_neg h32]
          simp
        rw [hesc] at h ⊢
        obtain ⟨f1, rfl⟩ : ∃ f1, f = f1 + 1 := ⟨f - 1, by simp at h; omega⟩
        obtain ⟨q, hq⟩ := ih f1 bgn (pos + 1) rest (by simp at h ⊢; omega)
        exact ⟨q, scanStringF_step_plain hqt hbs h32 hq⟩

/-! ### Round-trip: encoder output shapes -/

theorem encVal_list_cons {x : PyVal} {xs : List PyVal} {ind lvl : Nat}
    (hok : (encItems false ind (lvl + 1) x xs).2 = Option.none) :
    encVal false ind lvl (PyVal.list (x :: xs)) =
      ('[' :: '\n' :: sp (ind * (lvl + 1)) ++ (encItems false ind (lvl + 1) x xs).1 ++
        '\n' :: sp (ind * lvl) ++ [']'], Option.none) := by
  rw [encVal]
  simp only [hok]

theorem encVal_dict_cons {k : String} {v : PyVal} {kvs : List (String × PyVal)} {ind lvl : Nat}
    (hok : (encMembers false ind (lvl + 1) k v kvs).2 = Option.none) :
    encVal false ind lvl (PyVal.dict ((k, v) :: kvs)) =
      ('{' :: '\n' :: sp (ind * (lvl + 1)) ++ (encMembers false ind (lvl + 1) k v kvs).1 ++
        '\n' :: sp (ind * lvl) ++ ['}'], Option.none) := by
  rw [encVal]
  simp only [hok]

theorem encItems_nil (a : Bool) (ind lvl : Nat) (x : PyVal) :
    encItems a ind lvl x [] = encVal a ind lvl x := by rw [encItems]

theorem encItems_cons {a : Bool} {ind lvl : Nat} {x : PyVal} (y : PyVal) (ys : List PyVal)
    (hok : (encVal a ind lvl x).2 = Option.none) :
    encItems a ind lvl x (y :: ys) =
      ((encVal a ind lvl x).1 ++ ',' :: '\n' :: sp (ind * lvl) ++ (encItems a ind lvl y ys).1,
        (encItems a ind lvl y ys).2) := by
  rw [encItems]
  simp only [hok]

theorem encMembers_nil (a : Bool) (ind lvl : Nat) (k : String) (v : PyVal) :
    encMembers a ind lvl k v [] =
      (encStr a k ++ ':' :: ' ' :: (encVal a ind lvl v).1, (encVal a ind lvl v).2) := by
  rw [encMembers]

theorem encMembers_cons {a : Bool} {ind lvl : Nat} {k : String} {v : PyVal}
    (k2 : String) (v2 : PyVal) (rest : List (String × PyVal))
    (hok : (encVal a ind lvl v).2 = Option.none) :
    encMembers a ind lvl k v ((k2, v2) :: rest) =
      (encStr a k ++ ':' :: ' ' :: (encVal a ind lvl v).1 ++
        ',' :: '\n' :: sp (ind * lvl) ++ (encMembers a ind lvl k2 v2 rest).1,
        (encMembers a ind lvl k2 v2 rest).2) := by
  rw [encMembers]
  simp only [hok]

theorem encVal_head {v : PyVal} (h : Roundtrippable v) (ind lvl : Nat) :
    ∃ c X, (encVal false ind lvl v).1 = c :: X ∧ isWsChar c = false ∧ c ≠ ']' ∧ c ≠ '}' := by
  cases h with
  | none => exact ⟨'n', "ull".toList, by rw [encVal]; rfl, by decide, by decide, by decide⟩
  | bool b =>
      cases b with
      | true => exact ⟨'t', "rue".toList, by rw [encVal]; rfl, by decide, by decide, by decide⟩
      | false => exact ⟨'f', "alse".toList, by rw [encVal]; rfl, by decide, by decide, by decide⟩
  | int n =>
      cases n with
      | ofNat m =>
          obtain ⟨hne, hdigs, _⟩ := natDigits_spec (m + 1) m (Nat.lt_succ_self m)
          rcases hd : natDigits (m + 1) m with _ | ⟨c, t⟩
          · exact absurd hd hne
          · have hc := digit_not_special (hdigs c (by rw [hd]; simp))
            refine ⟨c, t, ?_, hc.1, hc.2.2.2.2.1, hc.2.2.2.2.2.1⟩
            rw [encVal]
            show intReprL (Int.ofNat m) = c :: t
            rw [show intReprL (Int.ofNat m) = natDigits (m + 1) m from rfl, hd]
      | negSucc m =>
          exact ⟨'-', natDigits (m + 2) (m + 1), by rw [encVal]; rfl,
            by decide, by decide, by decide⟩
  | str s =>
      exact ⟨'"', escapeChars false s.toList ++ ['"'], by rw [encVal]; rfl,
        by decide, by decide, by decide⟩
  | list xs hxs =>
      cases xs with
      | nil => exact ⟨'[', [']'], by rw [encVal], by decide, by decide, by decide⟩
      | cons x xs2 =>
          have hok := encItems_ok xs2 x ind (lvl + 1) (fun z hz ind2 lvl2 =>
            encVal_ok_of_serializable (rt_serializable (hxs z hz)) false ind2 lvl2)
          refine ⟨'[', '\n' :: sp (ind * (lvl + 1)) ++ (encItems false ind (lvl + 1) x xs2).1 ++
            '\n' :: sp (ind * lvl) ++ [']'], ?_, by decide, by decide, by decide⟩
          rw [encVal_list_cons hok]
          rfl
  | dict kvs hkvs hnd =>
      cases kvs with
      | nil => exact ⟨'{', ['}'], by rw [encVal], by decide, by decide, by decide⟩
      | cons kv kvs2 =>
          obtain ⟨k, v0⟩ := kv
          have hok := encMembers_ok kvs2 k v0 ind (lvl + 1) (fun z hz ind2 lvl2 =>
            encVal_ok_of_serializable (rt_serializable (hkvs z hz)) false ind2 lvl2)
          refine ⟨'{', '\n' :: sp (ind * (lvl + 1)) ++ (encMembers false ind (lvl + 1) k v0 kvs2).1 ++
            '\n' :: sp (ind * lvl) ++ ['}'], ?_, by decide, by decide, by decide⟩
          rw [encVal_dict_cons hok]
          rfl

/-! ### Round-trip: parser dispatch on the leading character -/

theorem parseValF_quote (f pos : Nat) (X : List Char) :
    parseValF (f + 1) ('"' :: X) pos =
      match scanStringF (X.length + 1) pos X (pos + 1) with
      | Except.ok r => Except.ok (PyVal.str (String.mk r.1), r.2.1, r.2.2)
      | Except.error e => Except.error e := by
  simp only [parseValF]

theorem parseValF_other {c : Char} (h1 : c ≠ '"') (h2 : c ≠ '{') (h3 : c ≠ '[')
    (f pos : Nat) (X : List Char) :
    parseValF (f + 1) (c :: X) pos =
      (if (c :: X).take 4 = "null".toList then Except.ok (PyVal.none, (c :: X).drop 4, pos + 4)
       else if (c :: X).take 4 = "true".toList then
         Except.ok (PyVal.bool true, (c :: X).drop 4, pos + 4)
       else if (c :: X).take 5 = "false".toList then
         Except.ok (PyVal.bool false, (c :: X).drop 5, pos + 5)
       else
         match matchNumber (c :: X) with
         | some r => Except.ok (r.1, r.2, pos + ((c :: X).length - r.2.length))
         | Option.none =>
           if (c :: X).take 3 = "NaN".toList then
             Except.ok (PyVal.nan, (c :: X).drop 3, pos + 3)
           else if (c :: X).take 8 = "Infinity".toList then
             Except.ok (PyVal.inf, (c :: X).drop 8, pos + 8)
           else if (c :: X).take 9 = "-Infinity".toList then
             Except.ok (PyVal.ninf, (c :: X).drop 9, pos + 9)
           else Except.error (DecErr.mk "Expecting value" pos)) := by
  simp only [parseValF]
  split
  · rename_i heq; injection heq with hh _; exact absurd hh h1
  · rename_i heq; injection heq with hh _; exact absurd hh h2
  · rename_i heq; injection heq with hh _; exact absurd hh h3
  · rfl

theorem take_cons_ne {c d : Char} (h : c ≠ d) (n : Nat) (L Y : List Char) :
    List.take n (c :: L) ≠ d :: Y := by
  cases n with
  | zero => simp
  | succ n => rw [List.take_succ_cons]; simp [h]

theorem parsesBack_none : ParsesBack PyVal.none := by
  intro ind lvl fuel rest pos hf hb
  rw [show (encVal false ind lvl PyVal.none).1 = "null".toList by rw [encVal]] at hf ⊢
  obtain ⟨F, rfl⟩ : ∃ F, fuel = F + 1 := ⟨fuel - 1, by omega⟩
  rw [show ("null".toList ++ rest : List Char) = 'n' :: ("ull".toList ++ rest) from rfl]
  rw [parseValF_other (by decide) (by decide) (by decide)]
  have ht : List.take 4 ('n' :: ("ull".toList ++ rest)) = "null".toList := rfl
  rw [if_pos ht]
  exact ⟨pos + 4, rfl⟩

theorem parsesBack_bool (b : Bool) : ParsesBack (PyVal.bool b) := by
  intro ind lvl fuel rest pos hf hb
  rw [show (encVal false ind lvl (PyVal.bool b)).1 = (if b then "true" else "false").toList
    by rw [encVal]] at hf ⊢
  obtain ⟨F, rfl⟩ : ∃ F, fuel = F + 1 := ⟨fuel - 1, by omega⟩
  cases b with
  | true =>
      rw [show ((if true then "true" else "false").toList ++ rest : List Char) =
        't' :: ("rue".toList ++ rest) from rfl]
      rw [parseValF_other (by decide) (by decide) (by decide)]
      rw [show List.take 4 ('t' :: ("rue".toList ++ rest)) = ['t', 'r', 'u', 'e'] from rfl]
      rw [if_neg (by decide), if_pos (by decide)]
      exact ⟨pos + 4, rfl⟩
  | false =>
      rw [show ((if false then "true" else "false").toList ++ rest : List Char) =
        'f' :: ("alse".toList ++ rest) from rfl]
      rw [parseValF_other (by decide) (by decide) (by decide)]
      rw [show List.take 4 ('f' :: ("alse".toList ++ rest)) = ['f', 'a', 'l', 's'] from rfl]
      rw [show List.take 5 ('f' :: ("alse".toList ++ rest)) = ['f', 'a', 'l', 's', 'e'] from rfl]
      rw [if_neg (by decide), if_neg (by decide), if_pos (by decide)]
      exact ⟨pos + 5, rfl⟩

theorem parsesBack_int (n : Int) : ParsesBack (PyVal.int n) := by
  intro ind lvl fuel rest pos hf hb
  rw [show (encVal false ind lvl (PyVal.int n)).1 = intReprL n by rw [encVal]] at hf ⊢
  obtain ⟨F, rfl⟩ : ∃ F, fuel = F + 1 := ⟨fuel - 1, by omega⟩
  cases n with
  | ofNat m =>
      obtain ⟨hne, hdigs, _⟩ := natDigits_spec (m + 1) m (Nat.lt_succ_self m)
      rcases hd : natDigits (m + 1) m with _ | ⟨c, t⟩
      · exact absurd hd hne
      · have hc := digit_not_special (hdigs c (by rw [hd]; simp))
        rw [show intReprL (Int.ofNat m) = natDigits (m + 1) m from rfl, hd]
        rw [show ((c :: t) ++ rest : List Char) = c :: (t ++ rest) from rfl]
        rw [parseValF_other hc.2.1 hc.2.2.1 hc.2.2.2.1]
        rw [show ("null".toList : List Char) = 'n' :: 'u' :: 'l' :: 'l' :: [] from rfl,
          show ("true".toList : List Char) = 't' :: 'r' :: 'u' :: 'e' :: [] from rfl,
          show ("false".toList : List Char) = 'f' :: 'a' :: 'l' :: 's' :: 'e' :: [] from rfl]
        rw [if_neg (take_cons_ne hc.2.2.2.2.2.2.1 4 _ _),
          if_neg (take_cons_ne hc.2.2.2.2.2.2.2.1 4 _ _),
          if_neg (take_cons_ne hc.2.2.2.2.2.2.2.2.1 5 _ _)]
        rw [show (c :: (t ++ rest) : List Char) = intReprL (Int.ofNat m) ++ rest by
          rw [show intReprL (Int.ofNat m) = natDigits (m + 1) m from rfl, hd]; rfl]
        rw [matchNumber_intRepr hb]
        exact ⟨_, rfl⟩
  | negSucc m =>
      rw [show intReprL (Int.negSucc m) = '-' :: natDigits (m + 2) (m + 1) from rfl]
      rw [show (('-' :: natDigits (m + 2) (m + 1)) ++ rest : List Char) =
        '-' :: (natDigits (m + 2) (m + 1) ++ rest) from rfl]
      rw [parseValF_other (by decide) (by decide) (by decide)]
      rw [show ("null".toList : List Char) = 'n' :: 'u' :: 'l' :: 'l' :: [] from rfl,
        show ("true".toList : List Char) = 't' :: 'r' :: 'u' :: 'e' :: [] from rfl,
        show ("false".toList : List Char) = 'f' :: 'a' :: 'l' :: 's' :: 'e' :: [] from rfl]
      rw [if_neg (take_cons_ne (show ('-':Char) ≠ 'n' by decide) 4 _ _),
        if_neg (take_cons_ne (show ('-':Char) ≠ 't' by decide) 4 _ _),
        if_neg (take_cons_ne (show ('-':Char) ≠ 'f' by decide) 5 _ _)]
      rw [show ('-' :: (natDigits (m + 2) (m + 1) ++ rest) : List Char) =
        intReprL (Int.negSucc m) ++ rest from rfl]
      rw [matchNumber_intRepr hb]
      exact ⟨_, rfl⟩

theorem parsesBack_str (s : String) : ParsesBack (PyVal.str s) := by
  intro ind lvl fuel rest pos hf hb
  rw [show (encVal false ind lvl (PyVal.str s)).1 = encStr false s by rw [encVal]] at hf ⊢
  obtain ⟨F, rfl⟩ : ∃ F, fuel = F + 1 := ⟨fuel - 1, by omega⟩
  rw [show (encStr false s ++ rest : List Char) =
    '"' :: (escapeChars false s.toList ++ '"' :: rest) by simp [encStr]]
  rw [parseValF_quote]
  obtain ⟨q, hsc⟩ := scanStringF_complete s.toList
    ((escapeChars false s.toList ++ '"' :: rest).length + 1) pos (pos + 1) rest
    (by simp; omega)
  rw [hsc]
  refine ⟨q, ?_⟩
  show Except.ok (PyVal.str (String.mk s.toList), rest, q) = Except.ok (PyVal.str s, rest, q)
  rw [mk_toList]

theorem encItems_head {x : PyVal} (hx : Roundtrippable x) (xs : List PyVal) (ind lvl : Nat)
    (hok : (encVal false ind lvl x).2 = Option.none) :
    ∃ c X, (encItems false ind lvl x xs).1 = c :: X ∧ isWsChar c = false ∧ c ≠ ']' ∧ c ≠ '}' := by
  obtain ⟨c, X0, hE, h1, h2, h3⟩ := encVal_head hx ind lvl
  cases xs with
  | nil => exact ⟨c, X0, by rw [encItems_nil, hE], h1, h2, h3⟩
  | cons y ys =>
      refine ⟨c, X0 ++ ',' :: '\n' :: sp (ind * lvl) ++ (encItems false ind lvl y ys).1,
        ?_, h1, h2, h3⟩
      rw [encItems_cons y ys hok]
      simp [hE]

theorem encMembers_head (k : String) (v : PyVal) (kvs : List (String × PyVal)) (ind lvl : Nat)
    (hok : (encVal false ind lvl v).2 = Option.none) :
    ∃ T, (encMembers false ind lvl k v kvs).1 = '"' :: T := by
  cases kvs with
  | nil =>
      exact ⟨(escapeChars false k.toList ++ ['"']) ++ ':' :: ' ' :: (encVal false ind lvl v).1,
        by rw [encMembers_nil]; rfl⟩
  | cons kv2 rest =>
      obtain ⟨k2, v2⟩ := kv2
      exact ⟨(escapeChars false k.toList ++ ['"']) ++ ':' :: ' ' :: (encVal false ind lvl v).1 ++
        ',' :: '\n' :: sp (ind * lvl) ++ (encMembers false ind lvl k2 v2 rest).1,
        by rw [encMembers_cons k2 v2 rest hok]; rfl⟩

theorem skipWs_nl_sp {c : Char} (hc : isWsChar c = false) (n : Nat) (l : List Char)
    (pos : Nat) : ∃ q, skipWs ('\n' :: (sp n ++ c :: l)) pos = (c :: l, q) :=
  skipWs_to_head (nl_sp_all_ws n) hc l pos

theorem parseArrItemsF_complete :
    ∀ (xs : List PyVal) (x : PyVal) (acc : List PyVal) (f ind lvl M pos : Nat)
      (rest : List Char),
      (∀ z ∈ x :: xs, ParsesBack z) →
      (∀ z ∈ x :: xs, Roundtrippable z) →
      (encItems false ind lvl x xs).1.length + 1 < f →
      ∃ q, parseArrItemsF f acc
          ((encItems false ind lvl x xs).1 ++ ('\n' :: (sp M ++ (']' :: rest)))) pos =
        Except.ok (PyVal.list (acc ++ x :: xs), rest, q) := by
  intro xs
  induction xs with
  | nil =>
      intro x acc f ind lvl M pos rest hpb hrt hf
      rw [encItems_nil] at hf ⊢
      obtain ⟨F, rfl⟩ : ∃ F, f = F + 1 := ⟨f - 1, by omega⟩
      obtain ⟨q0, hpv⟩ := hpb x (by simp) ind lvl F ('\n' :: (sp M ++ (']' :: rest))) pos
        (by omega) ⟨by decide, by decide, by decide, by decide⟩
      obtain ⟨q1, hw⟩ := skipWs_nl_sp (show isWsChar ']' = false by decide) M rest q0
      simp only [parseArrItemsF, hpv, hw]
      exact ⟨q1 + 1, rfl⟩
  | cons y ys ih =>
      intro x acc f ind lvl M pos rest hpb hrt hf
      have hokx : (encVal false ind lvl x).2 = Option.none :=
        encVal_ok_of_serializable (rt_serializable (hrt x (by simp))) false ind lvl
      have hoky : (encVal false ind lvl y).2 = Option.none :=
        encVal_ok_of_serializable (rt_serializable (hrt y (by simp))) false ind lvl
      rw [encItems_cons y ys hokx] at hf
      simp only [List.length_append, List.length_cons, sp, List.length_replicate] at hf
      obtain ⟨F, rfl⟩ : ∃ F, f = F + 1 := ⟨f - 1, by omega⟩
      have hin : (encItems false ind lvl x (y :: ys)).1 ++ ('\n' :: (sp M ++ (']' :: rest))) =
          (encVal false ind lvl x).1 ++ (',' :: ('\n' :: (sp (ind * lvl) ++
            ((encItems false ind lvl y ys).1 ++ ('\n' :: (sp M ++ (']' :: rest))))))) := by
        rw [encItems_cons y ys hokx]
        simp
      rw [hin]
      obtain ⟨q0, hpv⟩ := hpb x (by simp) ind lvl F
        (',' :: ('\n' :: (sp (ind * lvl) ++
          ((encItems false ind lvl y ys).1 ++ ('\n' :: (sp M ++ (']' :: rest))))))) pos
        (by omega) ⟨by decide, by decide, by decide, by decide⟩
      have hw1 := skipWs_cons_not_ws (show isWsChar ',' = false by decide)
        ('\n' :: (sp (ind * lvl) ++
          ((encItems false ind lvl y ys).1 ++ ('\n' :: (sp M ++ (']' :: rest)))))) q0
      obtain ⟨c, X, hitems, hcws, hcbr, _⟩ := encItems_head (hrt y (by simp)) ys ind lvl hoky
      have hlist : ((encItems false ind lvl y ys).1 ++ ('\n' :: (sp M ++ (']' :: rest)))
          : List Char) = c :: (X ++ ('\n' :: (sp M ++ (']' :: rest)))) := by
        rw [hitems]
        simp
      obtain ⟨q2, hw2⟩ := skipWs_nl_sp hcws (ind * lvl)
        (X ++ ('\n' :: (sp M ++ (']' :: rest)))) (q0 + 1)
      rw [← hlist] at hw2
      simp only [parseArrItemsF, hpv, hw1, hw2]
      obtain ⟨q, hrec⟩ := ih y (acc ++ [x]) F ind lvl M q2 rest
        (fun z hz => hpb z (by simp at hz ⊢; tauto))
        (fun z hz => hrt z (by simp at hz ⊢; tauto))
        (by omega)
      rw [hrec]
      refine ⟨q, ?_⟩
      rw [show ((acc ++ [x]) ++ y :: ys : List PyVal) = acc ++ x :: y :: ys by simp]

theorem skipWs_cons_of_ws {c : Char} (h : isWsChar c = true) (l : List Char) (pos : Nat) :
    skipWs (c :: l) pos = skipWs l (pos + 1) := by
  simp [skipWs, h]

theorem parseObjItemsF_complete :
    ∀ (kvs : List (String × PyVal)) (k : String) (v : PyVal)
      (acc : List (String × PyVal)) (f ind lvl M pos : Nat) (rest T : List Char),
      (∀ z ∈ (k, v) :: kvs, ParsesBack z.2) →
      (∀ z ∈ (k, v) :: kvs, Roundtrippable z.2) →
      (encMembers false ind lvl k v kvs).1.length + 1 < f →
      (encMembers false ind lvl k v kvs).1 = '"' :: T →
      ∃ q, parseObjItemsF f acc (T ++ ('\n' :: (sp M ++ ('}' :: rest)))) pos =
        Except.ok (PyVal.dict (dictFromPairs (acc ++ (k, v) :: kvs)), rest, q) := by
  intro kvs
  induction kvs with
  | nil =>
      intro k v acc f ind lvl M pos rest T hpb hrt hf heq
      have hpbv : ParsesBack v := hpb (k, v) (by simp)
      have hrtv : Roundtrippable v := hrt (k, v) (by simp)
      have h0 : ('"' :: ((escapeChars false k.toList ++ ['"']) ++
          ':' :: ' ' :: (encVal false ind lvl v).1) : List Char) = '"' :: T := by
        rw [← heq, encMembers_nil]
        rfl
      injection h0 with _ hT
      subst hT
      rw [encMembers_nil] at hf
      simp only [List.length_append, List.length_cons, encStr] at hf
      obtain ⟨F, rfl⟩ : ∃ F, f = F + 1 := ⟨f - 1, by omega⟩
      rw [show (((escapeChars false k.toList ++ ['"']) ++
          ':' :: ' ' :: (encVal false ind lvl v).1) ++
            ('\n' :: (sp M ++ ('}' :: rest))) : List Char) =
        escapeChars false k.toList ++ '"' :: (':' :: (' ' :: ((encVal false ind lvl v).1 ++
          ('\n' :: (sp M ++ ('}' :: rest)))))) by simp]
      obtain ⟨q1, hscan⟩ := scanStringF_complete k.toList
        ((escapeChars false k.toList ++ '"' :: (':' :: (' ' :: ((encVal false ind lvl v).1 ++
          ('\n' :: (sp M ++ ('}' :: rest))))))).length + 1) (pos - 1) pos
        (':' :: (' ' :: ((encVal false ind lvl v).1 ++ ('\n' :: (sp M ++ ('}' :: rest))))))
        (by simp; omega)
      have hw1 := skipWs_cons_not_ws (show isWsChar ':' = false by decide)
        (' ' :: ((encVal false ind lvl v).1 ++ ('\n' :: (sp M ++ ('}' :: rest))))) q1
      obtain ⟨c, X0, hE, hcws, _, _⟩ := encVal_head hrtv ind lvl
      have hlist : ((encVal false ind lvl v).1 ++ ('\n' :: (sp M ++ ('}' :: rest)))
          : List Char) = c :: (X0 ++ ('\n' :: (sp M ++ ('}' :: rest)))) := by
        rw [hE]
        simp
      have hw2 : skipWs (' ' :: ((encVal false ind lvl v).1 ++
          ('\n' :: (sp M ++ ('}' :: rest))))) (q1 + 1) =
          ((encVal false ind lvl v).1 ++ ('\n' :: (sp M ++ ('}' :: rest))), q1 + 1 + 1) := by
        rw [skipWs_cons_of_ws (by decide), hlist, skipWs_cons_not_ws hcws, ← hlist]
      obtain ⟨q3, hpv⟩ := hpbv ind lvl F ('\n' :: (sp M ++ ('}' :: rest)))
        (q1 + 1 + 1) (by omega) ⟨by decide, by decide, by decide, by decide⟩
      obtain ⟨q4, hw3⟩ := skipWs_nl_sp (show isWsChar '}' = false by decide) M rest q3
      simp only [parseObjItemsF, hscan, hw1, hw2, hpv, hw3]
      refine ⟨q4 + 1, ?_⟩
      rw [mk_toList]
  | cons kv2 kvs2 ih =>
      obtain ⟨k2, v2⟩ := kv2
      intro k v acc f ind lvl M pos rest T hpb hrt hf heq
      have hpbv : ParsesBack v := hpb (k, v) (by simp)
      have hrtv : Roundtrippable v := hrt (k, v) (by simp)
      have hokv : (encVal false ind lvl v).2 = Option.none :=
        encVal_ok_of_serializable (rt_serializable hrtv) false ind lvl
      have hokv2 : (encVal false ind lvl v2).2 = Option.none :=
        encVal_ok_of_serializable
          (rt_serializable (hrt (k2, v2) (by simp) : Roundtrippable v2)) false ind lvl
      obtain ⟨T2, heq2⟩ := encMembers_head k2 v2 kvs2 ind lvl hokv2
      have hlen2 : (encMembers false ind lvl k2 v2 kvs2).1.length = T2.length + 1 := by
        rw [heq2]
        rfl
      have h0 : ('"' :: ((escapeChars false k.toList ++ ['"']) ++
          ':' :: ' ' :: ((encVal false ind lvl v).1 ++
            ',' :: '\n' :: (sp (ind * lvl) ++
              (encMembers false ind lvl k2 v2 kvs2).1))) : List Char) = '"' :: T := by
        rw [← heq, encMembers_cons k2 v2 kvs2 hokv]
        show _ = encStr false k ++ ':' :: ' ' :: (encVal false ind lvl v).1 ++
          ',' :: '\n' :: sp (ind * lvl) ++ (encMembers false ind lvl k2 v2 kvs2).1
        simp [encStr]
      injection h0 with _ hT
      subst hT
      rw [encMembers_cons k2 v2 kvs2 hokv] at hf
      simp only [List.length_append, List.length_cons, encStr] at hf
      obtain ⟨F, rfl⟩ : ∃ F, f = F + 1 := ⟨f - 1, by omega⟩
      rw [show (((escapeChars false k.toList ++ ['"']) ++
          ':' :: ' ' :: ((encVal false ind lvl v).1 ++
            ',' :: '\n' :: (sp (ind * lvl) ++ (encMembers false ind lvl k2 v2 kvs2).1))) ++
            ('\n' :: (sp M ++ ('}' :: rest))) : List Char) =
        escapeChars false k.toList ++ '"' :: (':' :: (' ' :: ((encVal false ind lvl v).1 ++
          (',' :: ('\n' :: (sp (ind * lvl) ++ ('"' :: (T2 ++
            ('\n' :: (sp M ++ ('}' :: rest))))))))))) by rw [heq2]; simp]
      obtain ⟨q1, hscan⟩ := scanStringF_complete k.toList
        ((escapeChars false k.toList ++ '"' :: (':' :: (' ' :: ((encVal false ind lvl v).1 ++
          (',' :: ('\n' :: (sp (ind * lvl) ++ ('"' :: (T2 ++
            ('\n' :: (sp M ++ ('}' :: rest)))))))))))).length + 1) (pos - 1) pos
        (':' :: (' ' :: ((encVal false ind lvl v).1 ++
          (',' :: ('\n' :: (sp (ind * lvl) ++ ('"' :: (T2 ++
            ('\n' :: (sp M ++ ('}' :: rest)))))))))))
        (by simp; omega)
      have hw1 := skipWs_cons_not_ws (show isWsChar ':' = false by decide)
        (' ' :: ((encVal false ind lvl v).1 ++
          (',' :: ('\n' :: (sp (ind * lvl) ++ ('"' :: (T2 ++
            ('\n' :: (sp M ++ ('}' :: rest)))))))))) q1
      obtain ⟨c, X0, hE, hcws, _, _⟩ := encVal_head hrtv ind lvl
      have hlist : ((encVal false ind lvl v).1 ++
          (',' :: ('\n' :: (sp (ind * lvl) ++ ('"' :: (T2 ++
            ('\n' :: (sp M ++ ('}' :: rest)))))))) : List Char) =
          c :: (X0 ++ (',' :: ('\n' :: (sp (ind * lvl) ++ ('"' :: (T2 ++
            ('\n' :: (sp M ++ ('}' :: rest))))))))) := by
        rw [hE]
        simp
      have hw2 : skipWs (' ' :: ((encVal false ind lvl v).1 ++
          (',' :: ('\n' :: (sp (ind * lvl) ++ ('"' :: (T2 ++
            ('\n' :: (sp M ++ ('}' :: rest)))))))))) (q1 + 1) =
          ((encVal false ind lvl v).1 ++
            (',' :: ('\n' :: (sp (ind * lvl) ++ ('"' :: (T2 ++
              ('\n' :: (sp M ++ ('}' :: rest)))))))), q1 + 1 + 1) := by
        rw [skipWs_cons_of_ws (by decide), hlist, skipWs_cons_not_ws hcws, ← hlist]
      obtain ⟨q3, hpv⟩ := hpbv ind lvl F
        (',' :: ('\n' :: (sp (ind * lvl) ++ ('"' :: (T2 ++
          ('\n' :: (sp M ++ ('}' :: rest)))))))) (q1 + 1 + 1)
        (by omega) ⟨by decide, by decide, by decide, by decide⟩
      have hw3 := skipWs_cons_not_ws (show isWsChar ',' = false by decide)
        ('\n' :: (sp (ind * lvl) ++ ('"' :: (T2 ++
          ('\n' :: (sp M ++ ('}' :: rest))))))) q3
      obtain ⟨q5, hw4⟩ := skipWs_nl_sp (show isWsChar '"' = false by decide) (ind * lvl)
        (T2 ++ ('\n' :: (sp M ++ ('}' :: rest)))) (q3 + 1)
      simp only [parseObjItemsF, hscan, hw1, hw2, hpv, hw3, hw4]
      obtain ⟨q, hrec⟩ := ih k2 v2 (acc ++ [(String.mk k.toList, v)]) F ind lvl M (q5 + 1)
        rest T2
        (fun z hz => hpb z (by simp at hz ⊢; tauto))
        (fun z hz => hrt z (by simp at hz ⊢; tauto))
        (by omega) heq2
      rw [hrec]
      refine ⟨q, ?_⟩
      rw [mk_toList]
      rw [show ((acc ++ [(k, v)]) ++ (k2, v2) :: kvs2 : List (String × PyVal)) =
        acc ++ (k, v) :: (k2, v2) :: kvs2 by simp]

theorem parse_complete {v : PyVal} (h : Roundtrippable v) : ParsesBack v := by
  induction h with
  | none => exact parsesBack_none
  | bool b => exact parsesBack_bool b
  | int n => exact parsesBack_int n
  | str s => exact parsesBack_str s
  | list xs hxs ih =>
      cases xs with
      | nil =>
          intro ind lvl fuel rest pos hf hb
          rw [show (encVal false ind lvl (PyVal.list [])).1 = ['[', ']'] by rw [encVal]] at hf ⊢
          obtain ⟨F, rfl⟩ : ∃ F, fuel = F + 1 := ⟨fuel - 1, by omega⟩
          rw [show ((['[', ']'] : List Char) ++ rest) = '[' :: ']' :: rest from rfl]
          simp only [parseValF, skipWs_cons_not_ws (show isWsChar ']' = false by decide)]
          exact ⟨pos + 1 + 1, rfl⟩
      | cons x xs2 =>
          intro ind lvl fuel rest pos hf hb
          have hokx : (encVal false ind (lvl + 1) x).2 = Option.none :=
            encVal_ok_of_serializable (rt_serializable (hxs x (by simp))) false ind (lvl + 1)
          have hokItems := encItems_ok xs2 x ind (lvl + 1) (fun z hz ind2 lvl2 =>
            encVal_ok_of_serializable (rt_serializable (hxs z hz)) false ind2 lvl2)
          rw [encVal_list_cons hokItems] at hf ⊢
          simp only [List.length_append, List.length_cons, sp, List.length_replicate] at hf
          obtain ⟨F, rfl⟩ : ∃ F, fuel = F + 1 := ⟨fuel - 1, by omega⟩
          obtain ⟨c, X, hitems, hcws, hcbr, _⟩ :=
            encItems_head (hxs x (by simp)) xs2 ind (lvl + 1) hokx
          rw [show ((('[' :: '\n' :: sp (ind * (lvl + 1)) ++
              (encItems false ind (lvl + 1) x xs2).1 ++
              '\n' :: sp (ind * lvl) ++ [']']) ++ rest : List Char)) =
            '[' :: ('\n' :: (sp (ind * (lvl + 1)) ++
              ((encItems false ind (lvl + 1) x xs2).1 ++
                ('\n' :: (sp (ind * lvl) ++ (']' :: rest)))))) by simp]
          have hlist : ((encItems false ind (lvl + 1) x xs2).1 ++
              ('\n' :: (sp (ind * lvl) ++ (']' :: rest))) : List Char) =
              c :: (X ++ ('\n' :: (sp (ind * lvl) ++ (']' :: rest)))) := by
            rw [hitems]
            simp
          obtain ⟨q1, hw⟩ := skipWs_nl_sp hcws (ind * (lvl + 1))
            (X ++ ('\n' :: (sp (ind * lvl) ++ (']' :: rest)))) (pos + 1)
          rw [← hlist] at hw
          obtain ⟨q, hrec⟩ := parseArrItemsF_complete xs2 x [] F ind (lvl + 1)
            (ind * lvl) q1 rest ih hxs (by omega)
          refine ⟨q, ?_⟩
          simp only [parseValF, hw]
          split
          · rename_i heq
            rw [hlist] at heq
            injection heq with hh _
            exact absurd hh hcbr
          · exact hrec
  | dict kvs hkvs hnd ih =>
      cases kvs with
      | nil =>
          intro ind lvl fuel rest pos hf hb
          rw [show (encVal false ind lvl (PyVal.dict [])).1 = ['{', '}'] by rw [encVal]] at hf ⊢
          obtain ⟨F, rfl⟩ : ∃ F, fuel = F + 1 := ⟨fuel - 1, by omega⟩
          rw [show ((['{', '}'] : List Char) ++ rest) = '{' :: '}' :: rest from rfl]
          simp only [parseValF, skipWs_cons_not_ws (show isWsChar '}' = false by decide)]
          exact ⟨pos + 1 + 1, rfl⟩
      | cons kv kvs2 =>
          obtain ⟨k, v0⟩ := kv
          intro ind lvl fuel rest pos hf hb
          have hokv0 : (encVal false ind (lvl + 1) v0).2 = Option.none :=
            encVal_ok_of_serializable
              (rt_serializable (hkvs (k, v0) (by simp) : Roundtrippable v0)) false ind (lvl + 1)
          have hokMembers := encMembers_ok kvs2 k v0 ind (lvl + 1) (fun z hz ind2 lvl2 =>
            encVal_ok_of_serializable (rt_serializable (hkvs z hz)) false ind2 lvl2)
          rw [encVal_dict_cons hokMembers] at hf ⊢
          simp only [List.length_append, List.length_cons, sp, List.length_replicate] at hf
          obtain ⟨F, rfl⟩ : ∃ F, fuel = F + 1 := ⟨fuel - 1, by omega⟩
          obtain ⟨T, heqm⟩ := encMembers_head k v0 kvs2 ind (lvl + 1) hokv0
          have hlenM : (encMembers false ind (lvl + 1) k v0 kvs2).1.length = T.length + 1 := by
            rw [heqm]
            rfl
          rw [show ((('{' :: '\n' :: sp (ind * (lvl + 1)) ++
              (encMembers false ind (lvl + 1) k v0 kvs2).1 ++
              '\n' :: sp (ind * lvl) ++ ['}']) ++ rest : List Char)) =
            '{' :: ('\n' :: (sp (ind * (lvl + 1)) ++ ('"' :: (T ++
              ('\n' :: (sp (ind * lvl) ++ ('}' :: rest))))))) by rw [heqm]; simp]
          obtain ⟨q1, hw⟩ := skipWs_nl_sp (show isWsChar '"' = false by decide)
            (ind * (lvl + 1)) (T ++ ('\n' :: (sp (ind * lvl) ++ ('}' :: rest)))) (pos + 1)
          obtain ⟨q, hrec⟩ := parseObjItemsF_complete kvs2 k v0 [] F ind (lvl + 1)
            (ind * lvl) (q1 + 1) rest T ih hkvs (by omega) heqm
          refine ⟨q, ?_⟩
          simp only [parseValF, hw]
          rw [hrec]
          rw [show (([] ++ (k, v0) :: kvs2 : List (String × PyVal))) = (k, v0) :: kvs2 from rfl,
            dictFromPairs_self ((k, v0) :: kvs2) hnd]
          rfl

/-! ### Round-trip: the whole document level -/

theorem loads_dumps {v : PyVal} (h : Roundtrippable v) (ind : Nat) :
    loads (String.mk (dumps v ind false).1) = Except.ok v := by
  unfold loads dumps
  have hl : (String.mk (encVal false ind 0 v).1).toList = (encVal false ind 0 v).1 := rfl
  obtain ⟨c, X, hE, hcws, _, _⟩ := encVal_head h ind 0
  have hw : skipWs (encVal false ind 0 v).1 0 = ((encVal false ind 0 v).1, 0) := by
    rw [hE]
    exact skipWs_cons_not_ws hcws _ 0
  obtain ⟨q, hpv⟩ := parse_complete h ind 0 ((encVal false ind 0 v).1.length + 1) [] 0
    (by omega) trivial
  rw [List.append_nil] at hpv
  simp only [hl, hw, hpv]
  rfl

theorem zip_self_spec {α : Type} : ∀ (l : List α) (p : α × α), p ∈ l.zip l →
    p.1 = p.2 ∧ p.1 ∈ l := by
  intro l
  induction l with
  | nil => intro p hp; simp at hp
  | cons x t ih =>
      intro p hp
      simp only [List.zip_cons_cons, List.mem_cons] at hp
      rcases hp with hp | hp
      · rw [hp]; exact ⟨rfl, by simp⟩
      · obtain ⟨h1, h2⟩ := ih p hp
        exact ⟨h1, by simp [h2]⟩

theorem lookup_isSome_of_mem {β : Type} {k : String} {v : β} : ∀ {d : List (String × β)},
    (k, v) ∈ d → (d.lookup k).isSome = true := by
  intro d
  induction d with
  | nil => intro hm; simp at hm
  | cons e es ih =>
      intro hm
      obtain ⟨k0, v0⟩ := e
      rw [lookup_cons']
      by_cases hk : k = k0
      · simp [hk]
      · rw [if_neg hk]
        rcases List.mem_cons.mp hm with he | he
        · exact absurd (congrArg Prod.fst he) hk
        · exact ih he

theorem lookup_eq_of_mem_nodup {β : Type} {k : String} {v : β} : ∀ {d : List (String × β)},
    (k, v) ∈ d → (d.map Prod.fst).Nodup → d.lookup k = some v := by
  intro d
  induction d with
  | nil => intro hm _; simp at hm
  | cons e es ih =>
      intro hm hnd
      obtain ⟨k0, v0⟩ := e
      simp only [List.map_cons, List.nodup_cons] at hnd
      rw [lookup_cons']
      rcases List.mem_cons.mp hm with he | he
      · injection he with h1 h2
        rw [if_pos h1, h2]
      · by_cases hk : k = k0
        · subst hk
          exact absurd (List.mem_map.mpr ⟨(k, v), he, rfl⟩) hnd.1
        · rw [if_neg hk]
          exact ih he hnd.2

theorem deepEq_refl {v : PyVal} (h : Roundtrippable v) : DeepEq v v := by
  induction h with
  | none => exact DeepEq.none
  | bool b => exact DeepEq.bool b
  | int n => exact DeepEq.int n
  | str s => exact DeepEq.str s
  | list xs hxs ih =>
      refine DeepEq.list xs xs rfl ?_
      intro p hp
      obtain ⟨h1, h2⟩ := zip_self_spec xs p hp
      rw [← h1]
      exact ih p.1 h2
  | dict kvs hkvs hnd ih =>
      refine DeepEq.dict kvs kvs rfl ?_ ?_
      · intro kv hkv
        exact lookup_isSome_of_mem (by rw [show ((kv.1, kv.2) : String × PyVal) = kv from rfl]; exact hkv)
      · intro kv hkv w hw
        have hl := lookup_eq_of_mem_nodup
          (by rw [show ((kv.1, kv.2) : String × PyVal) = kv from rfl]; exact hkv) hnd
        rw [hl] at hw
        injection hw with hw2
        rw [← hw2]
        exact ih kv hkv

/-! ### Claim C3: write/read round trip -/

/-- Claim C3, counterexample.  The claim quantifies over every
JSON-serializable value; `float('nan')` is serializable under `json.dump`'s
default `allow_nan=True` and the write/read pair succeeds, but the value read
back is a fresh NaN and Python `==` (deep equality) rejects `nan == nan`, so
the round trip does not yield a deep-equal value. -/
theorem C3_counterexample :
    Serializable PyVal.nan ∧
    write "p3.json" PyVal.nan 4 false true (FS.mk [] []) =
      (Except.ok (), (FS.mk [] []).setFile "p3.json" (String.mk "NaN".toList)) ∧
    read ((FS.mk [] []).setFile "p3.json" (String.mk "NaN".toList)) "p3.json" =
      Except.ok PyVal.nan ∧
    ¬ DeepEq PyVal.nan PyVal.nan := by
  refine ⟨Serializable.nan, ?_, rfl, nofun⟩
  have hw := @write_ok_eq (FS.mk [] []) "p3.json" PyVal.nan 4 false true Serializable.nan
    rfl rfl
  rw [show dumps PyVal.nan 4 false = ("NaN".toList, Option.none) by unfold dumps; rw [encVal]]
    at hw
  exact hw

/-- Claim C3, amended.  For every value of the JSON document data model
(null, booleans, ints, strings, arrays, string-keyed objects with distinct
keys - floats excluded, non-finite ones being the counterexample), writing to
a non-directory path inside an existing directory and reading back succeeds
and returns the value itself, in particular a deep-equal one. -/
theorem C3_theorem (fs : FS) (p : String) (data : PyVal) (h : Roundtrippable data)
    (h1 : fs.isDir p = false) (h2 : fs.isDir (parentPath p) = true) :
    ∃ fs2, write p data 4 false true fs = (Except.ok (), fs2) ∧
      ∃ w, read fs2 p = Except.ok w ∧ w = data ∧ DeepEq data w :=
  ⟨fs.setFile p (String.mk (dumps data 4 false).1),
    write_ok_eq 4 false true (rt_serializable h) h1 h2,
    data, read_valid_eq (getFile_setFile_self fs p _) (loads_dumps h 4), rfl, deepEq_refl h⟩

/-- Claim C3, witness for the amended theorem at a concrete nested value. -/
theorem C3_witness :
    Roundtrippable (PyVal.dict [("a", PyVal.int 1),
      ("b", PyVal.list [PyVal.str "x", PyVal.none])]) ∧
    (FS.mk [] []).isDir "w3.json" = false ∧
    (FS.mk [] []).isDir (parentPath "w3.json") = true ∧
    ∃ fs2, write "w3.json" (PyVal.dict [("a", PyVal.int 1),
        ("b", PyVal.list [PyVal.str "x", PyVal.none])]) 4 false true (FS.mk [] []) =
        (Except.ok (), fs2) ∧
      ∃ w, read fs2 "w3.json" = Except.ok w ∧
        w = PyVal.dict [("a", PyVal.int 1), ("b", PyVal.list [PyVal.str "x", PyVal.none])] ∧
        DeepEq (PyVal.dict [("a", PyVal.int 1), ("b", PyVal.list [PyVal.str "x", PyVal.none])])
          w := by
  have hrt : Roundtrippable (PyVal.dict [("a", PyVal.int 1),
      ("b", PyVal.list [PyVal.str "x", PyVal.none])]) := by
    refine Roundtrippable.dict _ ?_ (by simp)
    intro kv hkv
    simp only [List.mem_cons, List.not_mem_nil, or_false] at hkv
    rcases hkv with h | h
    · rw [h]; exact Roundtrippable.int 1
    · rw [h]
      refine Roundtrippable.list _ ?_
      intro x hx
      simp only [List.mem_cons, List.not_mem_nil, or_false] at hx
      rcases hx with h2 | h2
      · rw [h2]; exact Roundtrippable.str "x"
      · rw [h2]; exact Roundtrippable.none
  exact ⟨hrt, rfl, rfl,
    C3_theorem (FS.mk [] []) "w3.json" _ hrt rfl rfl⟩

/-! ### Claim C5: update merges shallowly and writes back -/

/-- Claim C5.  When the file at `p` holds a JSON object `m`, `update`
returns the shallow merge `dictUpdate m updates` (Python
`m.update(updates)`), writes exactly that mapping serialized with `write`'s
defaults (indent 4, `ensure_ascii=False`) back to `p`, and on the merge
every key of `updates` overwrites a same-named key of `m` while other keys
of `m` survive (the lookup law, top-level only). -/
theorem C5_theorem (fs : FS) (p c : String) (m updates : List (String × PyVal)) (cin : Bool)
    (hc : fs.getFile p = some c) (hv : loads c = Except.ok (PyVal.dict m))
    (h1 : fs.isDir p = false) (h2 : fs.isDir (parentPath p) = true)
    (hser : Serializable (PyVal.dict (dictUpdate m updates)))
    (hu : (updates.map Prod.fst).Nodup) :
    update p updates cin fs =
      (Except.ok (dictUpdate m updates),
        fs.setFile p (String.mk (dumps (PyVal.dict (dictUpdate m updates)) 4 false).1)) ∧
    ∀ k, (dictUpdate m updates).lookup k = (updates.lookup k).or (m.lookup k) := by
  constructor
  · unfold update
    rw [if_pos (pathExists_of_getFile hc)]
    simp only [read_valid_eq hc hv]
    rw [write_ok_eq 4 false true hser h1 h2]
  · exact lookup_dictUpdate updates hu m

/-- Claim C5, witness at the spec's own example: file content
parsing to the mapping a=1, b=2 and updates b=3, c=4 merge to
a=1, b=3, c=4, which is written back. -/
theorem C5_witness :
    (FS.mk [("d.json", "\x7b\"a\": 1, \"b\": 2\x7d")] []).getFile "d.json" =
      some "\x7b\"a\": 1, \"b\": 2\x7d" ∧
    loads "\x7b\"a\": 1, \"b\": 2\x7d" =
      Except.ok (PyVal.dict [("a", PyVal.int 1), ("b", PyVal.int 2)]) ∧
    dictUpdate [("a", PyVal.int 1), ("b", PyVal.int 2)]
      [("b", PyVal.int 3), ("c", PyVal.int 4)] =
      [("a", PyVal.int 1), ("b", PyVal.int 3), ("c", PyVal.int 4)] ∧
    update "d.json" [("b", PyVal.int 3), ("c", PyVal.int 4)] false
        (FS.mk [("d.json", "\x7b\"a\": 1, \"b\": 2\x7d")] []) =
      (Except.ok (dictUpdate [("a", PyVal.int 1), ("b", PyVal.int 2)]
          [("b", PyVal.int 3), ("c", PyVal.int 4)]),
        (FS.mk [("d.json", "\x7b\"a\": 1, \"b\": 2\x7d")] []).setFile "d.json"
          (String.mk (dumps (PyVal.dict (dictUpdate
            [("a", PyVal.int 1), ("b", PyVal.int 2)]
            [("b", PyVal.int 3), ("c", PyVal.int 4)])) 4 false).1)) ∧
    ∀ k, (dictUpdate [("a", PyVal.int 1), ("b", PyVal.int 2)]
        [("b", PyVal.int 3), ("c", PyVal.int 4)]).lookup k =
      (([("b", PyVal.int 3), ("c", PyVal.int 4)] : List (String × PyVal)).lookup k).or
        (([("a", PyVal.int 1), ("b", PyVal.int 2)] : List (String × PyVal)).lookup k) := by
  have hser : Serializable (PyVal.dict (dictUpdate [("a", PyVal.int 1), ("b", PyVal.int 2)]
      [("b", PyVal.int 3), ("c", PyVal.int 4)])) := by
    rw [show dictUpdate [("a", PyVal.int 1), ("b", PyVal.int 2)]
      [("b", PyVal.int 3), ("c", PyVal.int 4)] =
      [("a", PyVal.int 1), ("b", PyVal.int 3), ("c", PyVal.int 4)] from rfl]
    refine Serializable.dict _ ?_
    intro kv hkv
    simp only [List.mem_cons, List.not_mem_nil, or_false] at hkv
    rcases hkv with h | h | h <;> (rw [h]; exact Serializable.int _)
  have hmain := C5_theorem (FS.mk [("d.json", "\x7b\"a\": 1, \"b\": 2\x7d")] [])
    "d.json" "\x7b\"a\": 1, \"b\": 2\x7d"
    [("a", PyVal.int 1), ("b", PyVal.int 2)] [("b", PyVal.int 3), ("c", PyVal.int 4)] false
    rfl rfl rfl rfl hser (by simp)
  exact ⟨rfl, rfl, rfl, hmain.1, hmain.2⟩

/-! ### Claim C6: update discards non-mapping content -/

/-- Claim C6.  When the file at `p` parses to a non-mapping value, `update`
does not fail: the content is discarded, the merge starts from the empty
mapping, and (for updates with distinct keys, as a Python dict has) the
value returned and written back is exactly `updates`. -/
theorem C6_theorem (fs : FS) (p c : String) (v : PyVal) (updates : List (String × PyVal))
    (cin : Bool) (hc : fs.getFile p = some c) (hv : loads c = Except.ok v)
    (hnd : v.isDict = false)
    (h1 : fs.isDir p = false) (h2 : fs.isDir (parentPath p) = true)
    (hser : Serializable (PyVal.dict updates))
    (hu : (updates.map Prod.fst).Nodup) :
    update p updates cin fs =
      (Except.ok updates,
        fs.setFile p (String.mk (dumps (PyVal.dict updates) 4 false).1)) := by
  have hmerge : dictUpdate [] updates = updates := dictFromPairs_self updates hu
  cases v with
  | dict d => simp [PyVal.isDict] at hnd
  | none =>
      unfold update
      rw [if_pos (pathExists_of_getFile hc)]
      simp only [read_valid_eq hc hv, hmerge]
      rw [write_ok_eq 4 false true hser h1 h2]
  | bool b =>
      unfold update
      rw [if_pos (pathExists_of_getFile hc)]
      simp only [read_valid_eq hc hv, hmerge]
      rw [write_ok_eq 4 false true hser h1 h2]
  | int n =>
      unfold update
      rw [if_pos (pathExists_of_getFile hc)]
      simp only [read_valid_eq hc hv, hmerge]
      rw [write_ok_eq 4 false true hser h1 h2]
  | nan =>
      unfold update
      rw [if_pos (pathExists_of_getFile hc)]
      simp only [read_valid_eq hc hv, hmerge]
      rw [write_ok_eq 4 false true hser h1 h2]
  | inf =>
      unfold update
      rw [if_pos (pathExists_of_getFile hc)]
      simp only [read_valid_eq hc hv, hmerge]
      rw [write_ok_eq 4 false true hser h1 h2]
  | ninf =>
      unfold update
      rw [if_pos (pathExists_of_getFile hc)]
      simp only [read_valid_eq hc hv, hmerge]
      rw [write_ok_eq 4 false true hser h1 h2]
  | pfloat lit =>
      unfold update
      rw [if_pos (pathExists_of_getFile hc)]
      simp only [read_valid_eq hc hv, hmerge]
      rw [write_ok_eq 4 false true hser h1 h2]
  | str s =>
      unfold update
      rw [if_pos (pathExists_of_getFile hc)]
      simp only [read_valid_eq hc hv, hmerge]
      rw [write_ok_eq 4 false true hser h1 h2]
  | list xs =>
      unfold update
      rw [if_pos (pathExists_of_getFile hc)]
      simp only [read_valid_eq hc hv, hmerge]
      rw [write_ok_eq 4 false true hser h1 h2]
  | object cls =>
      unfold update
      rw [if_pos (pathExists_of_getFile hc)]
      simp only [read_valid_eq hc hv, hmerge]
      rw [write_ok_eq 4 false true hser h1 h2]

/-- Claim C6, witness: a file holding the array `[1, 2]` is discarded and
`update` returns exactly the updates mapping. -/
theorem C6_witness :
    (FS.mk [("x.json", "[1, 2]")] []).getFile "x.json" = some "[1, 2]" ∧
    loads "[1, 2]" = Except.ok (PyVal.list [PyVal.int 1, PyVal.int 2]) ∧
    (PyVal.list [PyVal.int 1, PyVal.int 2]).isDict = false ∧
    update "x.json" [("k", PyVal.str "v")] false (FS.mk [("x.json", "[1, 2]")] []) =
      (Except.ok [("k", PyVal.str "v")],
        (FS.mk [("x.json", "[1, 2]")] []).setFile "x.json"
          (String.mk (dumps (PyVal.dict [("k", PyVal.str "v")]) 4 false).1)) := by
  have hser : Serializable (PyVal.dict [("k", PyVal.str "v")]) := by
    refine Serializable.dict _ ?_
    intro kv hkv
    simp only [List.mem_cons, List.not_mem_nil, or_false] at hkv
    rw [hkv]
    exact Serializable.str _
  exact ⟨rfl, rfl, rfl,
    C6_theorem (FS.mk [("x.json", "[1, 2]")] []) "x.json" "[1, 2]"
      (PyVal.list [PyVal.int 1, PyVal.int 2]) [("k", PyVal.str "v")] false
      rfl rfl rfl rfl rfl hser (by simp)⟩

/-! ### Claim C8: bulk loading keyed by stem -/

theorem autoGo_lookup :
    ∀ (files : List (String × String)) (acc : List (String × PyVal)),
      (∀ f ∈ files, (loads f.2).isOk = true) →
      ∃ res, autoGo files acc = Except.ok res ∧
        ∀ k, res.lookup k =
          match files.reverse.find? (fun f => stemOfPath f.1 == k) with
          | some f => (loads f.2).toOption
          | Option.none => acc.lookup k := by
  intro files
  induction files with
  | nil =>
      intro acc h
      exact ⟨acc, rfl, fun k => by simp⟩
  | cons f0 rest ih =>
      obtain ⟨path, content⟩ := f0
      intro acc h
      have h0 : (loads content).isOk = true := h (path, content) (by simp)
      rcases hl : loads content with e | v
      · rw [hl] at h0
        simp [Except.isOk, Except.toBool] at h0
      · obtain ⟨res, hres, hlook⟩ := ih (dictSet acc (stemOfPath path) v)
          (fun f hf => h f (by simp [hf]))
        refine ⟨res, ?_, ?_⟩
        · simp only [autoGo, hl]
          exact hres
        · intro k
          rw [hlook k]
          rw [show ((path, content) :: rest).reverse = rest.reverse ++ [(path, content)]
            by simp]
          rw [List.find?_append]
          cases hfind : rest.reverse.find? (fun f => stemOfPath f.1 == k) with
          | some f => simp [hfind]
          | none =>
              simp only [hfind, Option.none_or]
              rw [lookup_dictSet]
              by_cases hk : k = stemOfPath path
              · subst hk
                simp [List.find?, hl, Except.toOption]
              · have hne : (stemOfPath path == k) = false :=
                  beq_eq_false_iff_ne.mpr (fun hh => hk hh.symm)
                simp [List.find?, hne, hk]

/-- Claim C8.  For an existing directory, `auto` enumerates exactly the
regular files whose path relative to the directory matches the glob
(`*.json` in the directory itself, or at any depth when recursive), in the
filesystem's traversal order; when every such file parses, the result maps
each stem to the parsed content of the last matching file with that stem
(later matches overwrite earlier ones), and stems of no matched file are
absent. -/
theorem C8_theorem (fs : FS) (d : String) (rec cin : Bool)
    (hex : fs.pathExists d = true)
    (hparse : ∀ f ∈ matchedFiles fs d rec, (loads f.2).isOk = true) :
    (∀ e, e ∈ matchedFiles fs d rec ↔ e ∈ fs.files ∧
      (match relTo d e.1 with
       | some rel => matchesPat rec rel
       | Option.none => false) = true) ∧
    ∃ res, auto d rec cin fs = (Except.ok res, fs) ∧
      ∀ k, res.lookup k =
        match (matchedFiles fs d rec).reverse.find? (fun f => stemOfPath f.1 == k) with
        | some f => (loads f.2).toOption
        | Option.none => Option.none := by
  constructor
  · intro e
    unfold matchedFiles
    rw [List.mem_filter]
  · unfold auto
    rw [if_neg (by simp [hex])]
    obtain ⟨res, hres, hlook⟩ := autoGo_lookup (matchedFiles fs d rec) [] hparse
    refine ⟨res, by rw [hres], fun k => ?_⟩
    rw [hlook k]
    cases hfind : (matchedFiles fs d rec).reverse.find? (fun f => stemOfPath f.1 == k) with
    | some f => rfl
    | none => rfl

/-- Claim C8, witness at the spec's example: `dir/a.json` and
`dir/sub/b.json`; the recursive load returns both files keyed by stem. -/
theorem C8_witness :
    (FS.mk [("dir/a.json", "\x7b\"x\": 1\x7d"), ("dir/sub/b.json", "\x7b\"y\": 2\x7d")]
      ["dir", "dir/sub"]).pathExists "dir" = true ∧
    matchedFiles (FS.mk [("dir/a.json", "\x7b\"x\": 1\x7d"),
        ("dir/sub/b.json", "\x7b\"y\": 2\x7d")] ["dir", "dir/sub"]) "dir" true =
      [("dir/a.json", "\x7b\"x\": 1\x7d"), ("dir/sub/b.json", "\x7b\"y\": 2\x7d")] ∧
    matchedFiles (FS.mk [("dir/a.json", "\x7b\"x\": 1\x7d"),
        ("dir/sub/b.json", "\x7b\"y\": 2\x7d")] ["dir", "dir/sub"]) "dir" false =
      [("dir/a.json", "\x7b\"x\": 1\x7d")] ∧
    ∃ res, auto "dir" true false (FS.mk [("dir/a.json", "\x7b\"x\": 1\x7d"),
        ("dir/sub/b.json", "\x7b\"y\": 2\x7d")] ["dir", "dir/sub"]) =
        (Except.ok res, FS.mk [("dir/a.json", "\x7b\"x\": 1\x7d"),
          ("dir/sub/b.json", "\x7b\"y\": 2\x7d")] ["dir", "dir/sub"]) ∧
      ∀ k, res.lookup k =
        match (matchedFiles (FS.mk [("dir/a.json", "\x7b\"x\": 1\x7d"),
            ("dir/sub/b.json", "\x7b\"y\": 2\x7d")] ["dir", "dir/sub"]) "dir"
              true).reverse.find? (fun f => stemOfPath f.1 == k) with
        | some f => (loads f.2).toOption
        | Option.none => Option.none := by
  refine ⟨rfl, rfl, rfl, ?_⟩
  exact (C8_theorem (FS.mk [("dir/a.json", "\x7b\"x\": 1\x7d"),
      ("dir/sub/b.json", "\x7b\"y\": 2\x7d")] ["dir", "dir/sub"]) "dir" true false rfl
    (by
      intro f hf
      rw [show matchedFiles (FS.mk [("dir/a.json", "\x7b\"x\": 1\x7d"),
          ("dir/sub/b.json", "\x7b\"y\": 2\x7d")] ["dir", "dir/sub"]) "dir" true =
        [("dir/a.json", "\x7b\"x\": 1\x7d"), ("dir/sub/b.json", "\x7b\"y\": 2\x7d")]
        from rfl] at hf
      simp only [List.mem_cons, List.not_mem_nil, or_false] at hf
      rcases hf with h | h <;> (rw [h]; rfl))).2

end AutoJsons
